import Mathlib

/-!
# Verification of `src/lib/utils/ast-utils.js` (webpack-cli AST helper layer)

A shallow embedding of the configuration-to-AST merge helpers.  JavaScript
values that appear in a Configuration Description are modelled by `JSValue`;
AST nodes produced through the jscodeshift builders are modelled by `Node`.
In-place mutation of the caller-supplied subtree is modelled by functions
returning the updated node.
-/

/-- Primitive JavaScript values (string / number / boolean) appearing in a
Configuration Description.  JavaScript numbers are modelled by `Int`; the
claims under verification only involve integral numerals. -/
inductive Prim where
  | pStr (s : String)
  | pNum (n : Int)
  | pBool (b : Bool)
deriving DecidableEq, Repr

/-- A Configuration Description value: a primitive, an ordered sequence, or a
nested mapping (iteration order of keys is the list order, as `Object.keys`
preserves string-key insertion order).  Pre-parsed fragments (`__paths`) and
`RegExp` values are outside the modelled description space. -/
inductive JSValue where
  | prim (p : Prim)
  | arr (elems : List JSValue)
  | obj (fields : List (String × JSValue))
deriving Repr

mutual

/-- Boolean structural equality on `JSValue` (decidable equality is derived
from it below; the automatic derive handler does not support this nested
inductive). -/
def JSValue.beq : JSValue → JSValue → Bool
  | .prim p, .prim q => p == q
  | .arr es, .arr fs => JSValue.beqElems es fs
  | .obj fs, .obj gs => JSValue.beqFields fs gs
  | _, _ => false

/-- Pointwise `JSValue.beq` on element lists. -/
def JSValue.beqElems : List JSValue → List JSValue → Bool
  | [], [] => true
  | a :: as, b :: bs => JSValue.beq a b && JSValue.beqElems as bs
  | _, _ => false

/-- Pointwise `JSValue.beq` on field lists. -/
def JSValue.beqFields : List (String × JSValue) → List (String × JSValue) → Bool
  | [], [] => true
  | (k, a) :: as, (l, b) :: bs => k == l && JSValue.beq a b && JSValue.beqFields as bs
  | _, _ => false

end

theorem JSValue.beq_sound (n : Nat) :
    (∀ a b : JSValue, sizeOf a < n → (JSValue.beq a b = true ↔ a = b)) ∧
    (∀ as bs : List JSValue, sizeOf as < n → (JSValue.beqElems as bs = true ↔ as = bs)) ∧
    (∀ fs gs : List (String × JSValue), sizeOf fs < n →
      (JSValue.beqFields fs gs = true ↔ fs = gs)) := by
  induction n with
  | zero =>
    refine ⟨fun a _ h => ?_, fun as _ h => ?_, fun fs _ h => ?_⟩ <;> omega
  | succ n ih =>
    obtain ⟨ihv, ihe, ihf⟩ := ih
    refine ⟨fun a b h => ?_, fun as bs h => ?_, fun fs gs h => ?_⟩
    · cases a <;> cases b <;> simp_all [JSValue.beq]
      case arr.arr es fs =>
        have : sizeOf es < n := by simp_arith at h; omega
        exact ihe es fs this
      case obj.obj fs gs =>
        have : sizeOf fs < n := by simp_arith at h; omega
        exact ihf fs gs this
    · cases as with
      | nil => cases bs <;> simp [JSValue.beqElems]
      | cons a as =>
        cases bs with
        | nil => simp [JSValue.beqElems]
        | cons b bs =>
          have h1 : sizeOf a < n := by simp_arith at h; omega
          have h2 : sizeOf as < n := by simp_arith at h; omega
          simp [JSValue.beqElems, ihv a b h1, ihe as bs h2]
    · cases fs with
      | nil => cases gs <;> simp [JSValue.beqFields]
      | cons kv fs =>
        cases gs with
        | nil => obtain ⟨k, a⟩ := kv; simp [JSValue.beqFields]
        | cons lw gs =>
          obtain ⟨k, a⟩ := kv
          obtain ⟨l, b⟩ := lw
          have h1 : sizeOf a < n := by simp_arith at h; omega
          have h2 : sizeOf fs < n := by simp_arith at h; omega
          simp [JSValue.beqFields, ihv a b h1, ihf fs gs h2]

instance : DecidableEq JSValue := fun a b =>
  decidable_of_iff (JSValue.beq a b = true)
    ((JSValue.beq_sound (sizeOf a + 1)).1 a b (Nat.lt_succ_self _))

/-- AST nodes, as produced by the jscodeshift node builders used in the file:
`j.literal`, `j.identifier`, `j.property("init", k, v)`, `j.objectExpression`,
`j.arrayExpression`, `j.memberExpression`, `j.newExpression`.  `raw` models a
plain (non-node) JavaScript value stored where a node is expected — this
happens in `checkIfExistsAndAddValue`, which assigns the raw description value
to `prop.value`.  `jsNull` models the JavaScript `null` returned by
`pathsToMemberExpression` on an empty list. -/
inductive Node where
  | lit (value : JSValue)
  | ident (name : String)
  | property (kind : String) (key : Node) (value : Node)
  | objectExpr (properties : List Node)
  | arrayExpr (elements : List Node)
  | memberExpr (object : Node) (prop : Node)
  | newExpr (callee : Node) (args : List Node)
  | raw (value : JSValue)
  | jsNull
deriving Repr

mutual

/-- Boolean structural equality on `Node` (decidable equality is derived from
it below). -/
def Node.beq : Node → Node → Bool
  | .lit v, .lit w => v == w
  | .ident a, .ident b => a == b
  | .property k1 a1 b1, .property k2 a2 b2 => k1 == k2 && Node.beq a1 a2 && Node.beq b1 b2
  | .objectExpr l1, .objectExpr l2 => Node.beqList l1 l2
  | .arrayExpr l1, .arrayExpr l2 => Node.beqList l1 l2
  | .memberExpr o1 p1, .memberExpr o2 p2 => Node.beq o1 o2 && Node.beq p1 p2
  | .newExpr c1 a1, .newExpr c2 a2 => Node.beq c1 c2 && Node.beqList a1 a2
  | .raw v, .raw w => v == w
  | .jsNull, .jsNull => true
  | _, _ => false

/-- Pointwise `Node.beq` on node lists. -/
def Node.beqList : List Node → List Node → Bool
  | [], [] => true
  | a :: as, b :: bs => Node.beq a b && Node.beqList as bs
  | _, _ => false

end

theorem Node.nodeBeq_sound (n : Nat) :
    (∀ a b : Node, sizeOf a < n → (Node.beq a b = true ↔ a = b)) ∧
    (∀ as bs : List Node, sizeOf as < n → (Node.beqList as bs = true ↔ as = bs)) := by
  induction n with
  | zero => refine ⟨fun a _ h => ?_, fun as _ h => ?_⟩ <;> omega
  | succ n ih =>
    obtain ⟨ihn, ihl⟩ := ih
    refine ⟨fun a b h => ?_, fun as bs h => ?_⟩
    · cases a <;> cases b <;> simp_all [Node.beq]
      case property.property k1 a1 b1 k2 a2 b2 =>
        have h1 : sizeOf a1 < n := by simp_arith at h; omega
        have h2 : sizeOf b1 < n := by simp_arith at h; omega
        rw [ihn a1 a2 h1, ihn b1 b2 h2]
        tauto
      case objectExpr.objectExpr l1 l2 =>
        have : sizeOf l1 < n := by simp_arith at h; omega
        exact ihl l1 l2 this
      case arrayExpr.arrayExpr l1 l2 =>
        have : sizeOf l1 < n := by simp_arith at h; omega
        exact ihl l1 l2 this
      case memberExpr.memberExpr o1 p1 o2 p2 =>
        have h1 : sizeOf o1 < n := by simp_arith at h; omega
        have h2 : sizeOf p1 < n := by simp_arith at h; omega
        rw [ihn o1 o2 h1, ihn p1 p2 h2]
      case newExpr.newExpr c1 a1 c2 a2 =>
        have h1 : sizeOf c1 < n := by simp_arith at h; omega
        have h2 : sizeOf a1 < n := by simp_arith at h; omega
        rw [ihn c1 c2 h1, ihl a1 a2 h2]
    · cases as with
      | nil => cases bs <;> simp [Node.beqList]
      | cons a as =>
        cases bs with
        | nil => simp [Node.beqList]
        | cons b bs =>
          have h1 : sizeOf a < n := by simp_arith at h; omega
          have h2 : sizeOf as < n := by simp_arith at h; omega
          simp [Node.beqList, ihn a b h1, ihl as bs h2]

instance : DecidableEq Node := fun a b =>
  decidable_of_iff (Node.beq a b = true)
    ((Node.nodeBeq_sound (sizeOf a + 1)).1 a b (Nat.lt_succ_self _))

/-- Digits of a decimal numeral; `none` unless the character list is a
non-empty run of decimal digits. -/
def decDigits : List Char → Option Nat
  | [] => none
  | cs => go cs 0
where
  go : List Char → Nat → Option Nat
    | [], acc => some acc
    | c :: cs, acc =>
      if c.isDigit then go cs (acc * 10 + (c.toNat - '0'.toNat)) else none

/-- Model of the JavaScript `Number(s)` string conversion, restricted to the
fragment exercised here: the empty string converts to `0`, an optional-sign
run of decimal digits converts to the corresponding integer, and every other
string (including `"true"` and `"false"`) is `NaN`, modelled as `none`.
Fractional, exponent, hexadecimal and whitespace forms are outside the
modelled description space. -/
def jsNumber (s : String) : Option Int :=
  match s.toList with
  | [] => some 0
  | '-' :: rest => (decDigits rest).map (fun n => -(n : Int))
  | '+' :: rest => (decDigits rest).map (fun n => (n : Int))
  | cs => (decDigits cs).map (fun n => (n : Int))

/-- `needle.isPrefixOf`-based substring test on character lists. -/
def listHasSub (needle : List Char) : List Char → Bool
  | [] => needle.isEmpty
  | c :: cs => needle.isPrefixOf (c :: cs) || listHasSub needle cs

/-- Model of `key.indexOf("inject") >= 0`: the key contains the injectable
marker substring. -/
def hasInjectMarker (s : String) : Bool :=
  listHasSub "inject".toList s.toList

/-- `createLiteral(j, val)`: string-to-native coercion followed by
`j.literal`.  The source assigns `literalVal` through a sequence of
non-exclusive `if` statements: `'true'` to `true`, `'false'` to `false`, and,
whenever `Number(val)` is not `NaN`, to `Number(val)`.  Non-string values are
passed to `j.literal` unchanged. -/
def createLiteral (val : JSValue) : Node :=
  match val with
  | .prim (.pStr s) =>
    let lv1 : JSValue := if s = "true" then .prim (.pBool true) else .prim (.pStr s)
    let lv2 : JSValue := if s = "false" then .prim (.pBool false) else lv1
    let lv3 : JSValue :=
      match jsNumber s with
      | some n => .prim (.pNum n)
      | none => lv2
    .lit lv3
  | v => .lit v

/-- `createIdentifierOrLiteral(j, val)`: for strings, `'true'`/`'false'` and
numeric strings return the coerced `j.literal`; any other string returns
`j.identifier(val)`.  Non-string values (which have no `__paths` field in the
modelled description space) fall through to `j.literal(val)`. -/
def createIdentifierOrLiteral (val : JSValue) : Node :=
  match val with
  | .prim (.pStr s) =>
    if s = "true" then .lit (.prim (.pBool true))
    else if s = "false" then .lit (.prim (.pBool false))
    else
      match jsNumber s with
      | some n => .lit (.prim (.pNum n))
      | none => .ident s
  | v => .lit v

/-- The scalar coercion rule exactly as the specification states it: `"true"`
becomes boolean `true`, `"false"` becomes boolean `false`, a string that fully
parses as a number becomes that number, and any other string stays a string.
Stated from the spec's words, to be compared with the source-derived
`createLiteral` and `createIdentifierOrLiteral`. -/
def specCoerce (s : String) : JSValue :=
  if s = "true" then .prim (.pBool true)
  else if s = "false" then .prim (.pBool false)
  else
    match jsNumber s with
    | some n => .prim (.pNum n)
    | none => .prim (.pStr s)

theorem jsNumber_true_eq_none : jsNumber "true" = none := by decide

theorem jsNumber_false_eq_none : jsNumber "false" = none := by decide

/-- `path.name` for an identifier node; `none` models `undefined`. -/
def nodeName : Node → Option String
  | .ident n => some n
  | _ => none

/-- `memberExpressionToPathString(path)`: joins the chain of
`path.property.name` names with `"."`.  `Array.prototype.join` renders
`undefined` as the empty string, and a node that is neither a member
expression nor an identifier has no `.name` (modelled by `none`). -/
def memberExpressionToPathString : Node → Option String
  | .memberExpr o p =>
    some (((memberExpressionToPathString o).getD "") ++ "." ++ ((nodeName p).getD ""))
  | n => nodeName n

/-- `pathsToMemberExpression(j, paths)`: an empty list gives `null`, a
singleton an identifier, and otherwise a member expression whose object comes
from the tail and whose property is `pathsToMemberExpression` of the
singleton head, i.e. `j.identifier(head)`. -/
def pathsToMemberExpression : List String → Node
  | [] => .jsNull
  | [p] => .ident p
  | first :: rest => .memberExpr (pathsToMemberExpression rest) (.ident first)

/-- `safeTraverse(n, ["key", "name"])` as used by the property filter in
`pushObjectKeys`, and the `prop.key.name` accesses elsewhere: the name of a
property node's identifier key.  `none` models `null`/`undefined` (a literal
key has no `.name`; a non-property node has no `.key`). -/
def safeTraverseKeyName : Node → Option String
  | .property _ k _ => nodeName k
  | _ => none

/-- `x.value.properties` where `x` is either a path whose `.value` is an
object-expression node, or a `Property` node whose `.value` is its value
child — the same duck-typed access works for both in the source.  For any
other shape the access is `undefined` and the source throws; modelled as the
empty list. -/
def pProps : Node → List Node
  | .objectExpr ps => ps
  | .property _ _ (.objectExpr ps) => ps
  | _ => []

/-- Writing back the property list read by `pProps`; on a shape where the
source would have thrown, the node is returned unchanged. -/
def pSetProps : Node → List Node → Node
  | .objectExpr _, l => .objectExpr l
  | .property kind k (.objectExpr _), l => .property kind k (.objectExpr l)
  | n, _ => n

/-- `createProperty(j, key, value)` = `j.property("init",
createIdentifierOrLiteral(j, key), createLiteral(j, value))`; option keys are
strings. -/
def createProperty (key : String) (value : JSValue) : Node :=
  .property "init" (createIdentifierOrLiteral (.prim (.pStr key))) (createLiteral value)

/-- `createObjectWithSuppliedProperty(j, key, prop)` = `j.property("init",
j.identifier(key), prop)`. -/
def createObjectWithSuppliedProperty (key : String) (prop : Node) : Node :=
  .property "init" (.ident key) prop

/-- `createEmptyArrayProperty(j, key)` = `j.property("init",
j.identifier(key), j.arrayExpression([]))`. -/
def createEmptyArrayProperty (key : String) : Node :=
  .property "init" (.ident key) (.arrayExpr [])

mutual

/-- Recursion measure on description values (termination of the mutual
object/array walk). -/
def JSValue.weight : JSValue → Nat
  | .prim _ => 1
  | .arr es => 1 + JSValue.elemsWeight es
  | .obj fs => 1 + JSValue.fieldsWeight fs

/-- Recursion measure on element lists. -/
def JSValue.elemsWeight : List JSValue → Nat
  | [] => 0
  | v :: vs => 1 + JSValue.weight v + JSValue.elemsWeight vs

/-- Recursion measure on field lists. -/
def JSValue.fieldsWeight : List (String × JSValue) → Nat
  | [] => 0
  | (_, v) :: fs => 1 + JSValue.weight v + JSValue.fieldsWeight fs

end

/-- `Object.keys` of an array value: index strings `"0"`, `"1"`, … paired
with the elements. -/
def enumKeys (i : Nat) : List JSValue → List (String × JSValue)
  | [] => []
  | v :: vs => (toString i, v) :: enumKeys (i + 1) vs

theorem fieldsWeight_enumKeys (vs : List JSValue) :
    ∀ i, JSValue.fieldsWeight (enumKeys i vs) = JSValue.elemsWeight vs := by
  induction vs with
  | nil => intro i; rfl
  | cons v vs ih =>
    intro i
    simp [enumKeys, JSValue.fieldsWeight, JSValue.elemsWeight, ih]

/-- `Object.keys(v)` paired with the member values, as iterated by
`loopThroughObjects`: a mapping yields its fields in order, an array its
indexed elements, and a number or boolean has no own keys.
(`loopThroughObjects` is never reached with a string: both call sites
dispatch strings elsewhere first.) -/
def jsObjectKeys : JSValue → List (String × JSValue)
  | .prim _ => []
  | .arr es => enumKeys 0 es
  | .obj fs => fs

theorem fieldsWeight_jsObjectKeys (v : JSValue) :
    JSValue.fieldsWeight (jsObjectKeys v) < JSValue.weight v := by
  cases v <;>
    simp [jsObjectKeys, JSValue.weight, JSValue.fieldsWeight, fieldsWeight_enumKeys]

mutual

/-- `loopThroughObjects(j, p, obj)`: iterates the description's keys in
order, pushing one node per key onto the object-expression's property list
`props`.  A key containing the injectable marker pushes the bare
`createIdentifierOrLiteral` node (no `key: value` wrapper); a primitive (or
`RegExp`) value pushes a `key: value` property; a sequence pushes the
`createArrayWithChildren` property (`shouldDropKeys = true`); a nested
mapping pushes a `key: {}` property whose fresh empty object-expression is
filled by recursion before the push. -/
def loopThroughObjects (props : List Node) (fields : List (String × JSValue)) : List Node :=
  match fields with
  | [] => props
  | (k, v) :: rest =>
    let props2 :=
      if hasInjectMarker k then props ++ [createIdentifierOrLiteral v]
      else
        match v with
        | .prim p =>
          props ++ [createObjectWithSuppliedProperty k (createIdentifierOrLiteral (.prim p))]
        | .arr es => props ++ [createArrayWithChildrenDrop k es]
        | .obj fs =>
          props ++ [createObjectWithSuppliedProperty k (.objectExpr (loopThroughObjects [] fs))]
    loopThroughObjects props2 rest
termination_by JSValue.fieldsWeight fields
decreasing_by
  all_goals simp_arith [JSValue.fieldsWeight, JSValue.weight, JSValue.elemsWeight]
  all_goals omega

/-- The `shouldDropKeys = true` branch of `createArrayWithChildren(j, key,
subProps, true)`: starts from `createEmptyArrayProperty(j, key)` and pushes
one element node per member of the sequence. -/
def createArrayWithChildrenDrop (key : String) (subProps : List JSValue) : Node :=
  .property "init" (.ident key) (.arrayExpr (arrayChildren subProps))
termination_by 1 + JSValue.elemsWeight subProps
decreasing_by
  all_goals simp_arith [JSValue.fieldsWeight, JSValue.weight, JSValue.elemsWeight]
  all_goals omega

/-- Element construction inside `createArrayWithChildren` with
`shouldDropKeys = true`: a string member is pushed via
`createIdentifierOrLiteral`; any other member is walked by
`loopThroughObjects` over its `Object.keys` into a fresh object-expression
(so numbers and booleans become empty objects). -/
def arrayChildren (vs : List JSValue) : List Node :=
  match vs with
  | [] => []
  | v :: rest =>
    (match v with
     | .prim (.pStr s) => createIdentifierOrLiteral (.prim (.pStr s))
     | w => .objectExpr (loopThroughObjects [] (jsObjectKeys w))) :: arrayChildren rest
termination_by JSValue.elemsWeight vs
decreasing_by
  all_goals
    first
    | (simp_arith [JSValue.elemsWeight] <;> omega)
    | (refine lt_of_lt_of_le (fieldsWeight_jsObjectKeys _) ?_
       simp_arith [JSValue.elemsWeight, JSValue.weight] <;> omega)

end

/-- C2: for every string embedded as a scalar AST value node, `"true"`
becomes a boolean-true literal, `"false"` boolean-false, a string fully
parsing as a number a numeric literal, and any other string a plain string
literal under `createLiteral` — whereas under `createIdentifierOrLiteral`
(the identifier-requesting destination) a non-coercible string becomes an
identifier node instead of a string literal. -/
theorem C2_scalar_string_coercion (s : String) :
    createLiteral (.prim (.pStr s)) = Node.lit (specCoerce s) ∧
    createIdentifierOrLiteral (.prim (.pStr s)) =
      (match specCoerce s with
       | .prim (.pStr t) => Node.ident t
       | v => Node.lit v) := by
  unfold createLiteral createIdentifierOrLiteral specCoerce
  by_cases h1 : s = "true"
  · simp [h1, jsNumber_true_eq_none]
  · by_cases h2 : s = "false"
    · simp [h1, h2, jsNumber_false_eq_none]
    · cases hn : jsNumber s <;> simp [h1, h2, hn]

/-- C10: the empty string converts to the number `0` (`Number("") = 0`), so
both `createLiteral` and `createIdentifierOrLiteral` turn `""` into the
numeric literal `0` — an empty-string configuration value does not
round-trip as a string. -/
theorem C10_empty_string_becomes_zero :
    createLiteral (.prim (.pStr "")) = Node.lit (.prim (.pNum 0)) ∧
    createIdentifierOrLiteral (.prim (.pStr "")) = Node.lit (.prim (.pNum 0)) := by
  constructor <;> rfl

theorem loopThroughObjects_nil (props : List Node) : loopThroughObjects props [] = props := by
  conv_lhs => rw [loopThroughObjects.eq_def]

theorem loopThroughObjects_cons (props : List Node) (k : String) (v : JSValue)
    (rest : List (String × JSValue)) :
    loopThroughObjects props ((k, v) :: rest) =
      loopThroughObjects
        (if hasInjectMarker k then props ++ [createIdentifierOrLiteral v]
         else
           match v with
           | .prim p =>
             props ++ [createObjectWithSuppliedProperty k (createIdentifierOrLiteral (.prim p))]
           | .arr es => props ++ [createArrayWithChildrenDrop k es]
           | .obj fs =>
             props ++ [createObjectWithSuppliedProperty k (.objectExpr (loopThroughObjects [] fs))])
        rest := by
  conv_lhs => rw [loopThroughObjects.eq_def]

theorem createArrayWithChildrenDrop_def (key : String) (subProps : List JSValue) :
    createArrayWithChildrenDrop key subProps =
      .property "init" (.ident key) (.arrayExpr (arrayChildren subProps)) := by
  rw [createArrayWithChildrenDrop.eq_def]

theorem arrayChildren_nil : arrayChildren [] = [] := by
  rw [arrayChildren.eq_def]

theorem arrayChildren_cons (v : JSValue) (rest : List JSValue) :
    arrayChildren (v :: rest) =
      (match v with
       | .prim (.pStr s) => createIdentifierOrLiteral (.prim (.pStr s))
       | w => .objectExpr (loopThroughObjects [] (jsObjectKeys w))) :: arrayChildren rest := by
  conv_lhs => rw [arrayChildren.eq_def]

/-- C8: a description key containing the injectable marker substring
`"inject"` is appended by `loopThroughObjects` as the bare
`createIdentifierOrLiteral` node, pushed directly into the property list
with no `key: value` wrapper, while a sibling key without the marker is
wrapped in an ordinary property. -/
theorem C8_inject_marker_bypass (props : List Node) (k k2 : String) (v : JSValue)
    (p : Prim) (rest : List (String × JSValue))
    (h : hasInjectMarker k = true) (h2 : hasInjectMarker k2 = false) :
    loopThroughObjects props ((k, v) :: rest) =
      loopThroughObjects (props ++ [createIdentifierOrLiteral v]) rest ∧
    loopThroughObjects props ((k2, .prim p) :: rest) =
      loopThroughObjects
        (props ++ [createObjectWithSuppliedProperty k2 (createIdentifierOrLiteral (.prim p))])
        rest := by
  constructor
  · rw [loopThroughObjects_cons]
    simp [h]
  · rw [loopThroughObjects_cons]
    simp [h2]

/-- Witness for C8 at a concrete input: the marker key `"injectType"` is
pushed as a bare identifier node, the sibling key `"mode"` as a wrapped
property. -/
theorem C8_inject_marker_bypass_witness :
    loopThroughObjects [] [("injectType", .prim (.pStr "window"))] = [Node.ident "window"] ∧
    loopThroughObjects [] [("mode", .prim (.pStr "production"))] =
      [Node.property "init" (.ident "mode") (.ident "production")] := by
  have h := C8_inject_marker_bypass [] "injectType" "mode" (.prim (.pStr "window"))
    (.pStr "production") [] (by decide) (by decide)
  constructor
  · rw [h.1, loopThroughObjects_nil]; decide
  · rw [h.2, loopThroughObjects_nil]; decide

mutual

/-- Reading a generated node back through the toolkit's own value accessors:
a literal yields its `.value`, an identifier its `.name` (as a string),
object- and array-expressions recurse; any other node has no extractable
value. -/
def extractTree : Node → Option JSValue
  | .lit v => some v
  | .ident n => some (.prim (.pStr n))
  | .objectExpr ps => (extractFields ps).map .obj
  | .arrayExpr es => (extractElems es).map .arr
  | _ => none

/-- Reading back a property list: every entry must be a `key: value` property
with an identifier key. -/
def extractFields : List Node → Option (List (String × JSValue))
  | [] => some []
  | nd :: rest =>
    match nd with
    | .property _ k v =>
      (match nodeName k, extractTree v, extractFields rest with
       | some key, some w, some ws => some ((key, w) :: ws)
       | _, _, _ => none)
    | _ => none

/-- Reading back an element list. -/
def extractElems : List Node → Option (List JSValue)
  | [] => some []
  | e :: rest =>
    match extractTree e, extractElems rest with
    | some w, some ws => some (w :: ws)
    | _, _ => none

end

mutual

/-- Round-trip expectation of the amended claim C1: numbers and booleans
survive unchanged, strings follow the coercion rule `specCoerce` (so a
non-coercible string comes back as itself, via the identifier's name),
sequences and nested mappings recurse. -/
def expectedValue : JSValue → JSValue
  | .prim (.pStr s) => specCoerce s
  | .prim p => .prim p
  | .arr es => .arr (expectedElems es)
  | .obj fs => .obj (expectedFields fs)

/-- Sequence members under the amended claim: strings follow the coercion
rule, mappings recurse.  Other member shapes are excluded by the goodness
hypothesis; the `.obj []` placeholder matches the source behaviour for
numbers and booleans and is never reached under that hypothesis. -/
def expectedElems : List JSValue → List JSValue
  | [] => []
  | .prim (.pStr s) :: vs => specCoerce s :: expectedElems vs
  | .obj fs :: vs => .obj (expectedFields fs) :: expectedElems vs
  | _ :: vs => .obj [] :: expectedElems vs

/-- Field-wise round-trip expectation. -/
def expectedFields : List (String × JSValue) → List (String × JSValue)
  | [] => []
  | (k, v) :: fs => (k, expectedValue v) :: expectedFields fs

end

mutual

/-- Description values inside the amended claim C1's domain: no key at any
nesting level contains the injectable marker, and sequence members are
strings or mappings. -/
def goodValue : JSValue → Bool
  | .prim _ => true
  | .arr es => goodElems es
  | .obj fs => goodFields fs

/-- Goodness of sequence members. -/
def goodElems : List JSValue → Bool
  | [] => true
  | .prim (.pStr _) :: vs => goodElems vs
  | .obj fs :: vs => goodFields fs && goodElems vs
  | _ :: _ => false

/-- Goodness of description fields. -/
def goodFields : List (String × JSValue) → Bool
  | [] => true
  | (k, v) :: fs => !hasInjectMarker k && goodValue v && goodFields fs

end

mutual

/-- The leaf round-trip expectation exactly as claim C1 words it: numbers as
numbers, the strings `"true"`/`"false"` as booleans, other strings as
strings; sequences and mappings recurse pointwise.  Stated from the claim's
words, to be compared with the source-derived behaviour. -/
def claimLeafValue : JSValue → JSValue
  | .prim (.pStr s) =>
    if s = "true" then .prim (.pBool true)
    else if s = "false" then .prim (.pBool false)
    else .prim (.pStr s)
  | .prim p => .prim p
  | .arr es => .arr (claimLeafElems es)
  | .obj fs => .obj (claimLeafFields fs)

/-- Claim C1's expectation on sequence members. -/
def claimLeafElems : List JSValue → List JSValue
  | [] => []
  | v :: vs => claimLeafValue v :: claimLeafElems vs

/-- Claim C1's expectation on description fields. -/
def claimLeafFields : List (String × JSValue) → List (String × JSValue)
  | [] => []
  | (k, v) :: fs => (k, claimLeafValue v) :: claimLeafFields fs

end

/-- Claim C1 as stated, evaluated at one description: `mergeObjectInto`
(`loopThroughObjects`) on a fresh empty object node yields property keys
equal to the description's keys in the same order, and extraction reproduces
the description's primitives exactly as the claim words it. -/
def ClaimC1At (d : List (String × JSValue)) : Prop :=
  (loopThroughObjects [] d).map safeTraverseKeyName = d.map (fun kv => some kv.1) ∧
  extractFields (loopThroughObjects [] d) = some (claimLeafFields d)

/-- The node pushed by one iteration of `loopThroughObjects` for the field
`(k, v)` (derived characterization of the loop body, used to reason about
the loop as a map). -/
def ltoNode (k : String) (v : JSValue) : Node :=
  if hasInjectMarker k then createIdentifierOrLiteral v
  else
    match v with
    | .prim p => createObjectWithSuppliedProperty k (createIdentifierOrLiteral (.prim p))
    | .arr es => createArrayWithChildrenDrop k es
    | .obj fs => createObjectWithSuppliedProperty k (.objectExpr (loopThroughObjects [] fs))

theorem loopThroughObjects_eq_map (fs : List (String × JSValue)) :
    ∀ props : List Node,
      loopThroughObjects props fs = props ++ fs.map (fun kv => ltoNode kv.1 kv.2) := by
  induction fs with
  | nil => intro props; simp [loopThroughObjects_nil]
  | cons kv rest ih =>
    intro props
    obtain ⟨k, v⟩ := kv
    rw [loopThroughObjects_cons]
    have hb :
        (if hasInjectMarker k then props ++ [createIdentifierOrLiteral v]
         else
           match v with
           | .prim p =>
             props ++ [createObjectWithSuppliedProperty k (createIdentifierOrLiteral (.prim p))]
           | .arr es => props ++ [createArrayWithChildrenDrop k es]
           | .obj fs =>
             props ++
               [createObjectWithSuppliedProperty k (.objectExpr (loopThroughObjects [] fs))]) =
          props ++ [ltoNode k v] := by
      unfold ltoNode
      by_cases h : hasInjectMarker k
      · simp [h]
      · cases v <;> simp [h]
    rw [hb, ih]
    simp

theorem loopThroughObjects_append (fs : List (String × JSValue)) (props : List Node) :
    loopThroughObjects props fs = props ++ loopThroughObjects [] fs := by
  rw [loopThroughObjects_eq_map, loopThroughObjects_eq_map]
  simp

theorem extractTree_createIdentifierOrLiteral (p : Prim) :
    extractTree (createIdentifierOrLiteral (.prim p)) = some (expectedValue (.prim p)) := by
  cases p with
  | pStr s =>
    by_cases h1 : s = "true"
    · simp [createIdentifierOrLiteral, expectedValue, specCoerce, h1, extractTree]
    · by_cases h2 : s = "false"
      · simp [createIdentifierOrLiteral, expectedValue, specCoerce, h1, h2, extractTree]
      · cases hn : jsNumber s <;>
          simp [createIdentifierOrLiteral, expectedValue, specCoerce, h1, h2, hn, extractTree]
  | pNum n => simp [createIdentifierOrLiteral, expectedValue, extractTree]
  | pBool b => simp [createIdentifierOrLiteral, expectedValue, extractTree]

theorem extractFields_keys (l : List Node) :
    ∀ ws, extractFields l = some ws →
      l.map safeTraverseKeyName = ws.map (fun kv => some kv.1) := by
  induction l with
  | nil =>
    intro ws h
    simp [extractFields] at h
    subst h
    simp
  | cons nd rest ih =>
    intro ws h
    rw [extractFields.eq_def] at h
    cases nd <;> simp at h
    case property kind key v =>
      cases hk : nodeName key <;> cases hx : extractTree v <;> cases hy : extractFields rest <;>
        simp [hk, hx, hy] at h
      case some.some.some k w ws2 =>
        subst h
        simp [safeTraverseKeyName, hk, ih ws2 hy]

theorem expectedFields_keys (fs : List (String × JSValue)) :
    (expectedFields fs).map Prod.fst = fs.map Prod.fst := by
  induction fs with
  | nil => simp [expectedFields]
  | cons kv rest ih =>
    obtain ⟨k, v⟩ := kv
    simp [expectedFields, ih]

theorem roundtrip_strong (N : Nat) :
    (∀ fs : List (String × JSValue), JSValue.fieldsWeight fs < N → goodFields fs = true →
      extractFields (loopThroughObjects [] fs) = some (expectedFields fs)) ∧
    (∀ es : List JSValue, JSValue.elemsWeight es < N → goodElems es = true →
      extractElems (arrayChildren es) = some (expectedElems es)) := by
  induction N with
  | zero => constructor <;> (intro x hx; omega)
  | succ N ih =>
    obtain ⟨ihf, ihe⟩ := ih
    constructor
    · intro fs hw hg
      cases fs with
      | nil => simp [loopThroughObjects_nil, extractFields, expectedFields]
      | cons kv rest =>
        obtain ⟨k, v⟩ := kv
        simp [goodFields] at hg
        obtain ⟨⟨hk, hv⟩, hrest⟩ := hg
        have hwrest : JSValue.fieldsWeight rest < N := by
          simp [JSValue.fieldsWeight] at hw; omega
        have hr := ihf rest hwrest hrest
        rw [loopThroughObjects_eq_map] at hr ⊢
        simp only [List.map_cons]
        rw [extractFields.eq_def]
        simp only [List.nil_append] at hr
        cases v with
        | prim p =>
          have hx := extractTree_createIdentifierOrLiteral p
          have hn : ltoNode k (JSValue.prim p) =
              Node.property "init" (Node.ident k) (createIdentifierOrLiteral (JSValue.prim p)) := by
            simp [ltoNode, hk, createObjectWithSuppliedProperty]
          simp [hn, nodeName, hx, hr, expectedFields]
        | arr es =>
          have hwes : JSValue.elemsWeight es < N := by
            simp [JSValue.fieldsWeight, JSValue.weight] at hw; omega
          have hes := ihe es hwes (by simpa [goodValue] using hv)
          have hn : ltoNode k (JSValue.arr es) =
              Node.property "init" (Node.ident k) (Node.arrayExpr (arrayChildren es)) := by
            simp [ltoNode, hk, createArrayWithChildrenDrop_def]
          simp [hn, nodeName, extractTree, hes, hr, expectedFields, expectedValue]
        | obj fs2 =>
          have hwfs2 : JSValue.fieldsWeight fs2 < N := by
            simp [JSValue.fieldsWeight, JSValue.weight] at hw; omega
          have hfs2 := ihf fs2 hwfs2 (by simpa [goodValue] using hv)
          have hn : ltoNode k (JSValue.obj fs2) =
              Node.property "init" (Node.ident k)
                (Node.objectExpr (loopThroughObjects [] fs2)) := by
            simp [ltoNode, hk, createObjectWithSuppliedProperty]
          simp [hn, nodeName, extractTree, hfs2, hr, expectedFields, expectedValue]
    · intro es hw hg
      cases es with
      | nil => simp [arrayChildren_nil, extractElems, expectedElems]
      | cons v rest =>
        have hwrest : JSValue.elemsWeight rest < N := by
          simp [JSValue.elemsWeight] at hw; omega
        rw [arrayChildren_cons, extractElems.eq_def]
        cases v with
        | prim p =>
          cases p with
          | pStr s =>
            simp [goodElems] at hg
            have hr := ihe rest hwrest hg
            have hx := extractTree_createIdentifierOrLiteral (.pStr s)
            simp [expectedValue] at hx
            simp [hx, hr, expectedElems]
          | pNum n => simp [goodElems] at hg
          | pBool b => simp [goodElems] at hg
        | arr es2 => simp [goodElems] at hg
        | obj fs2 =>
          simp [goodElems] at hg
          obtain ⟨hfs2g, hrestg⟩ := hg
          have hr := ihe rest hwrest hrestg
          have hwfs2 : JSValue.fieldsWeight fs2 < N := by
            simp [JSValue.elemsWeight, JSValue.weight] at hw; omega
          have hfs2 := ihf fs2 hwfs2 hfs2g
          simp [jsObjectKeys, extractTree, hfs2, hr, expectedElems]

theorem map_some_fst (l : List (String × JSValue)) :
    l.map (fun kv => some kv.1) = (l.map Prod.fst).map some := by
  simp [List.map_map]

/-- C1 (amended): for every Configuration Description none of whose keys (at
any nesting level) contains the injectable marker substring `"inject"` and
whose sequence members are strings or nested mappings, `mergeObjectInto`
(`loopThroughObjects`) applied to a fresh empty object node yields one
property per description key, with keys equal to the description's keys in
the same enumeration order, and the leaf values round-trip under the
coercion rule: numbers and booleans as themselves, the strings
`"true"`/`"false"` as boolean literals, strings fully parsing as numbers as
numeric literals, and other strings as identifier nodes whose name
reproduces the string. -/
theorem C1_amended_merge_roundtrip (d : List (String × JSValue)) (h : goodFields d = true) :
    (loopThroughObjects [] d).map safeTraverseKeyName = d.map (fun kv => some kv.1) ∧
    extractFields (loopThroughObjects [] d) = some (expectedFields d) := by
  have h2 := (roundtrip_strong (JSValue.fieldsWeight d + 1)).1 d (Nat.lt_succ_self _) h
  refine ⟨?_, h2⟩
  have hk := extractFields_keys _ _ h2
  rw [hk, map_some_fst, expectedFields_keys d, ← map_some_fst]

/-- Witness for C1 (amended) at a concrete description with a nested
mapping, a numeric leaf, and a sequence of a string and a mapping. -/
theorem C1_amended_merge_roundtrip_witness :
    goodFields
        [("mode", .prim (.pStr "development")),
         ("entry", .obj [("main", .prim (.pStr "./src/index.js"))]),
         ("port", .prim (.pNum 8080)),
         ("extensions", .arr [.prim (.pStr ".js"), .obj [("use", .prim (.pStr "babel"))]])] =
      true ∧
    ((loopThroughObjects []
          [("mode", .prim (.pStr "development")),
           ("entry", .obj [("main", .prim (.pStr "./src/index.js"))]),
           ("port", .prim (.pNum 8080)),
           ("extensions", .arr [.prim (.pStr ".js"), .obj [("use", .prim (.pStr "babel"))]])]).map
          safeTraverseKeyName =
        [some "mode", some "entry", some "port", some "extensions"] ∧
      extractFields
          (loopThroughObjects []
            [("mode", .prim (.pStr "development")),
             ("entry", .obj [("main", .prim (.pStr "./src/index.js"))]),
             ("port", .prim (.pNum 8080)),
             ("extensions", .arr [.prim (.pStr ".js"), .obj [("use", .prim (.pStr "babel"))]])]) =
        some
          (expectedFields
            [("mode", .prim (.pStr "development")),
             ("entry", .obj [("main", .prim (.pStr "./src/index.js"))]),
             ("port", .prim (.pNum 8080)),
             ("extensions", .arr [.prim (.pStr ".js"), .obj [("use", .prim (.pStr "babel"))]])])) := by
  have hg :
      goodFields
          [("mode", .prim (.pStr "development")),
           ("entry", .obj [("main", .prim (.pStr "./src/index.js"))]),
           ("port", .prim (.pNum 8080)),
           ("extensions", .arr [.prim (.pStr ".js"), .obj [("use", .prim (.pStr "babel"))]])] =
        true := by
    simp [goodFields, goodValue, goodElems] <;> decide
  have hmain := C1_amended_merge_roundtrip _ hg
  exact ⟨hg, by rw [hmain.1]; rfl, hmain.2⟩

/-- Counterexample to C1 as stated: three descriptions with primitive,
sequence or nested-mapping values on which the claim fails.  A key containing
the marker substring loses its key (a bare identifier is pushed); the numeric
string `"1"` round-trips as the number `1`, not as the string `"1"`; and a
sequence member that is a number comes back as an empty object, not as a
number. -/
theorem C1_counterexample :
    ¬ ClaimC1At
        [("injectKey", .prim (.pStr "v")), ("a", .prim (.pStr "1")),
         ("b", .arr [.prim (.pNum 2)])] ∧
    ¬ ClaimC1At [("a", .prim (.pStr "1"))] ∧
    ¬ ClaimC1At [("b", .arr [.prim (.pNum 2)])] := by
  have hi : hasInjectMarker "injectKey" = true := by decide
  have ha : hasInjectMarker "a" = false := by decide
  have hb : hasInjectMarker "b" = false := by decide
  have jv : jsNumber "v" = none := by decide
  have j1 : jsNumber "1" = some 1 := by decide
  have Ea : loopThroughObjects [] [("a", JSValue.prim (.pStr "1"))] =
      [Node.property "init" (.ident "a") (.lit (.prim (.pNum 1)))] := by
    simp [loopThroughObjects, createIdentifierOrLiteral, createObjectWithSuppliedProperty, ha, j1]
  have Eb : loopThroughObjects [] [("b", JSValue.arr [JSValue.prim (.pNum 2)])] =
      [Node.property "init" (.ident "b") (.arrayExpr [Node.objectExpr []])] := by
    simp [loopThroughObjects, createArrayWithChildrenDrop_def, arrayChildren, jsObjectKeys,
      loopThroughObjects_nil, hb]
  refine ⟨fun hc => ?_, fun hc => ?_, fun hc => ?_⟩
  · obtain ⟨h1, _⟩ := hc
    have E : loopThroughObjects []
        [("injectKey", JSValue.prim (.pStr "v")), ("a", JSValue.prim (.pStr "1")),
         ("b", JSValue.arr [JSValue.prim (.pNum 2)])] =
        [Node.ident "v", Node.property "init" (.ident "a") (.lit (.prim (.pNum 1))),
         Node.property "init" (.ident "b") (.arrayExpr [Node.objectExpr []])] := by
      simp [loopThroughObjects, createIdentifierOrLiteral, createObjectWithSuppliedProperty,
        createArrayWithChildrenDrop_def, arrayChildren, jsObjectKeys, hi, ha, hb, jv, j1]
    rw [E] at h1
    simp [safeTraverseKeyName, nodeName] at h1
  · obtain ⟨_, h2⟩ := hc
    rw [Ea] at h2
    simp [extractFields, extractTree, nodeName, claimLeafFields, claimLeafValue] at h2
  · obtain ⟨_, h2⟩ := hc
    rw [Eb] at h2
    simp [extractFields, extractTree, extractElems, nodeName, claimLeafFields,
      claimLeafValue, claimLeafElems] at h2

mutual

/-- All `NewExpression` nodes in a subtree in DFS visit order (the root
included when it is itself a new-expression), modelling the jscodeshift tree
query `j(node).find(j.NewExpression)` used by `findPluginsByName`. -/
def findNewExprs : Node → List Node
  | .newExpr c args => Node.newExpr c args :: (findNewExprs c ++ findNewExprsList args)
  | .property _ k v => findNewExprs k ++ findNewExprs v
  | .objectExpr ps => findNewExprsList ps
  | .arrayExpr es => findNewExprsList es
  | .memberExpr o p => findNewExprs o ++ findNewExprs p
  | _ => []

/-- `findNewExprs` over the children of a list-valued field. -/
def findNewExprsList : List Node → List Node
  | [] => []
  | n :: rest => findNewExprs n ++ findNewExprsList rest

end

/-- The filter of `findPluginsByName`:
`memberExpressionToPathString(path.get("callee").value) === plugin` for some
name in the array.  Strict equality between a possibly-undefined string and
a string is modelled by equality of `Option String`. -/
def matchesPluginName (pluginNamesArray : List String) (n : Node) : Bool :=
  pluginNamesArray.any fun plugin =>
    match n with
    | .newExpr c _ => memberExpressionToPathString c == some plugin
    | _ => false

/-- `findPluginsByName(j, node, pluginNamesArray)`: the new-expression
descendants whose callee resolves to one of the given dotted names. -/
def findPluginsByName (node : Node) (pluginNamesArray : List String) : List Node :=
  (findNewExprs node).filter (matchesPluginName pluginNamesArray)

mutual

/-- All identifier names in a subtree in DFS order, modelling
`j(currentProps).find(j.Identifier)` over the existing properties. -/
def identNames : Node → List String
  | .ident n => [n]
  | .property _ k v => identNames k ++ identNames v
  | .objectExpr ps => identNamesList ps
  | .arrayExpr es => identNamesList es
  | .memberExpr o p => identNames o ++ identNames p
  | .newExpr c args => identNames c ++ identNamesList args
  | _ => []

/-- `identNames` over a node list. -/
def identNamesList : List Node → List String
  | [] => []
  | n :: rest => identNames n ++ identNamesList rest

end

/-- `opt.key.value`: the `.value` field of a property's key node.  A literal
key has one; an identifier key has `.name` but no `.value`, so the access
yields `undefined`, modelled as `none`. -/
def keyFieldValue : Node → Option JSValue
  | .property _ (.lit v) _ => some v
  | _ => none

/-- JavaScript strict equality `opt.key.value === path.value.name` between a
possibly-undefined key value and an identifier's name (always a string):
true only when the key value is that very string; `undefined`, booleans and
numbers are never strictly equal to a string. -/
def jsStrictEqValueName (v : Option JSValue) (name : String) : Bool :=
  match v with
  | some (.prim (.pStr s)) => s = name
  | _ => false

/-- One step of the option merge in `createOrUpdatePluginByName`: for the
option property `opt`, search the identifiers under the current properties
for one whose name strictly equals `opt.key.value`; if any matches,
`j(path.parent).replaceWith(opt)` replaces each matching identifier's parent
— modelled as the containing property; otherwise `currentProps.value.push(opt)`
appends.  The match never succeeds for properties built by `createProperty`
(their key is an identifier or a boolean/numeric literal, never a string
literal), see `mergeOptStep_appends`. -/
def mergeOptStep (props : List Node) (opt : Node) : List Node :=
  if props.any (fun p => (identNames p).any (jsStrictEqValueName (keyFieldValue opt))) then
    props.map fun p =>
      if (identNames p).any (jsStrictEqValueName (keyFieldValue opt)) then opt else p
  else props ++ [opt]

/-- `optionsProps.forEach` over the existing argument properties. -/
def mergeOptsInto (props : List Node) (opts : List Node) : List Node :=
  opts.foldl mergeOptStep props

mutual

/-- Rewrites the property list of the first object-expression of a subtree in
DFS order, modelling `j(path).find(j.ObjectExpression).get("properties")`
followed by in-place mutation of that list; `none` when the subtree has no
object-expression (there the source's `Collection.get` throws). -/
def rewriteFirstObjExpr (f : List Node → List Node) : Node → Option Node
  | .objectExpr ps => some (.objectExpr (f ps))
  | .property kind k v =>
    (match rewriteFirstObjExpr f k with
     | some k2 => some (.property kind k2 v)
     | none => (rewriteFirstObjExpr f v).map (fun v2 => .property kind k v2))
  | .arrayExpr es => (rewriteFirstObjExprList f es).map .arrayExpr
  | .memberExpr o p =>
    (match rewriteFirstObjExpr f o with
     | some o2 => some (.memberExpr o2 p)
     | none => (rewriteFirstObjExpr f p).map (fun p2 => .memberExpr o p2))
  | .newExpr c args =>
    (match rewriteFirstObjExpr f c with
     | some c2 => some (.newExpr c2 args)
     | none => (rewriteFirstObjExprList f args).map (fun args2 => .newExpr c args2))
  | _ => none

/-- `rewriteFirstObjExpr` over a node list: the first child subtree holding
an object-expression is rewritten, the rest are untouched. -/
def rewriteFirstObjExprList (f : List Node → List Node) : List Node → Option (List Node)
  | [] => none
  | n :: rest =>
    match rewriteFirstObjExpr f n with
    | some n2 => some (n2 :: rest)
    | none => (rewriteFirstObjExprList f rest).map (fun rest2 => n :: rest2)

end

/-- The mutation applied to each found plugin call in
`pluginInstancePath.forEach` when option properties are present: a call with
arguments gets the option properties merged into the first object-expression
under it; a call without arguments gets a fresh single object-expression
argument pushed. -/
def updateFoundPlugin (optionsProps : List Node) (n : Node) : Node :=
  match n with
  | .newExpr c args =>
    if args.length ≠ 0 then
      match rewriteFirstObjExpr (fun ps => mergeOptsInto ps optionsProps) (.newExpr c args) with
      | some n2 => n2
      | none => .newExpr c args
    else .newExpr c (args ++ [.objectExpr optionsProps])
  | m => m

mutual

/-- Applies `f` to every new-expression whose callee resolves to the plugin
name, children first — the found set is computed before mutation in the
source, so nodes pushed by the mutation itself are not revisited. -/
def rewriteNewExprsNamed (name : String) (f : Node → Node) : Node → Node
  | .newExpr c args =>
    let c2 := rewriteNewExprsNamed name f c
    let args2 := rewriteNewExprsNamedList name f args
    if matchesPluginName [name] (.newExpr c args) then f (.newExpr c2 args2)
    else .newExpr c2 args2
  | .property kind k v =>
    .property kind (rewriteNewExprsNamed name f k) (rewriteNewExprsNamed name f v)
  | .objectExpr ps => .objectExpr (rewriteNewExprsNamedList name f ps)
  | .arrayExpr es => .arrayExpr (rewriteNewExprsNamedList name f es)
  | .memberExpr o p =>
    .memberExpr (rewriteNewExprsNamed name f o) (rewriteNewExprsNamed name f p)
  | n => n

/-- `rewriteNewExprsNamed` over a node list. -/
def rewriteNewExprsNamedList (name : String) (f : Node → Node) : List Node → List Node
  | [] => []
  | n :: rest => rewriteNewExprsNamed name f n :: rewriteNewExprsNamedList name f rest

end

/-- Model of JavaScript's `String.prototype.split` with the one-character
separator `"."`, as in `pluginName.split(".")`: empty components are kept
and the result is never empty. -/
def splitOnDot (s : String) : List String :=
  go s.data []
where
  go : List Char → List Char → List String
    | [], acc => [String.mk acc.reverse]
    | c :: cs, acc =>
      if c = '.' then String.mk acc.reverse :: go cs [] else go cs (c :: acc)

/-- `createOrUpdatePluginByName(j, rootNodePath, pluginName, options)`: find
the constructor calls matching the dotted name; if any exist, mutate each
found call (merge or attach the options argument); otherwise build a new
constructor call from the reversed name parts and push it onto the array's
elements (`rootNodePath.value.elements.push`; on a non-array node that
access would throw, modelled as returning the node unchanged). -/
def createOrUpdatePluginByName (root : Node) (pluginName : String)
    (options : Option (List (String × JSValue))) : Node :=
  let optionsProps :=
    options.map fun opts => opts.map fun kv => createProperty kv.1 kv.2
  if (findPluginsByName root [pluginName]).length ≠ 0 then
    match optionsProps with
    | some props => rewriteNewExprsNamed pluginName (updateFoundPlugin props) root
    | none => root
  else
    let argumentsArray : List Node :=
      match optionsProps with
      | some props => [.objectExpr props]
      | none => []
    let loaderPluginInstance :=
      Node.newExpr (pathsToMemberExpression (splitOnDot pluginName).reverse) argumentsArray
    match root with
    | .arrayExpr es => .arrayExpr (es ++ [loaderPluginInstance])
    | n => n

/-- Joining name parts with `"."`, the inverse of `splitOnDot`. -/
def dotJoin : List String → String
  | [] => ""
  | [s] => s
  | s :: rest => s ++ "." ++ dotJoin rest

theorem strMkAppend (l1 l2 : List Char) : String.mk l1 ++ String.mk l2 = String.mk (l1 ++ l2) :=
  rfl

theorem dotJoin_cons_cons (a b : String) (t : List String) :
    dotJoin (a :: b :: t) = a ++ "." ++ dotJoin (b :: t) :=
  rfl

theorem strAppend_assoc (a b c : String) : a ++ b ++ c = a ++ (b ++ c) := by
  cases a; cases b; cases c
  simp [strMkAppend]

theorem dotJoin_append_last (xs : List String) (x : String) (h : xs ≠ []) :
    dotJoin (xs ++ [x]) = dotJoin xs ++ "." ++ x := by
  induction xs with
  | nil => simp at h
  | cons a rest ih =>
    cases rest with
    | nil => simp [dotJoin]
    | cons b rest2 =>
      have ihr := ih (by simp)
      simp only [List.cons_append] at ihr ⊢
      rw [dotJoin_cons_cons, dotJoin_cons_cons a b rest2, ihr]
      simp [strAppend_assoc]

theorem splitOnDot_go_ne_nil (cs acc : List Char) : splitOnDot.go cs acc ≠ [] := by
  induction cs generalizing acc with
  | nil => simp [splitOnDot.go]
  | cons c cs ih =>
    by_cases hc : c = '.' <;> simp [splitOnDot.go, hc, ih]

theorem dotJoin_go (cs : List Char) :
    ∀ acc, dotJoin (splitOnDot.go cs acc) = String.mk (acc.reverse ++ cs) := by
  induction cs with
  | nil => intro acc; simp [splitOnDot.go, dotJoin]
  | cons c cs ih =>
    intro acc
    by_cases hc : c = '.'
    · subst hc
      have hgo : splitOnDot.go ('.' :: cs) acc =
          String.mk acc.reverse :: splitOnDot.go cs [] := by
        simp [splitOnDot.go]
      obtain ⟨b, t, hbt⟩ : ∃ b t, splitOnDot.go cs [] = b :: t := by
        cases hcase : splitOnDot.go cs [] with
        | nil => exact absurd hcase (splitOnDot_go_ne_nil cs [])
        | cons b t => exact ⟨b, t, rfl⟩
      have ihcs := ih []
      rw [hbt] at ihcs
      rw [hgo, hbt, dotJoin_cons_cons, ihcs]
      rw [show ("." : String) = String.mk ['.'] from rfl, strMkAppend, strMkAppend]
      simp
    · have hgo : splitOnDot.go (c :: cs) acc = splitOnDot.go cs (c :: acc) := by
        simp [splitOnDot.go, hc]
      rw [hgo, ih (c :: acc)]
      simp

theorem dotJoin_splitOnDot (s : String) : dotJoin (splitOnDot s) = s := by
  have h := dotJoin_go s.data []
  simpa [splitOnDot] using h

theorem splitOnDot_ne_nil (s : String) : splitOnDot s ≠ [] := by
  simp [splitOnDot, splitOnDot_go_ne_nil]

theorem mETPS_pathsToMemberExpression (qs : List String) (h : qs ≠ []) :
    memberExpressionToPathString (pathsToMemberExpression qs) = some (dotJoin qs.reverse) := by
  induction qs with
  | nil => simp at h
  | cons q rest ih =>
    cases rest with
    | nil => simp [pathsToMemberExpression, memberExpressionToPathString, nodeName, dotJoin]
    | cons b rest2 =>
      have ihr := ih (by simp)
      rw [show pathsToMemberExpression (q :: b :: rest2) =
          Node.memberExpr (pathsToMemberExpression (b :: rest2)) (.ident q) from rfl]
      rw [show (q :: b :: rest2).reverse = (b :: rest2).reverse ++ [q] by simp]
      rw [dotJoin_append_last _ _ (by simp)]
      simp [memberExpressionToPathString, nodeName, ihr]

theorem rewriteNewExprsNamed_noMatch (name : String) (f : Node → Node) (N : Nat) :
    (∀ n : Node, sizeOf n < N →
      (∀ m ∈ findNewExprs n, matchesPluginName [name] m = false) →
      rewriteNewExprsNamed name f n = n) ∧
    (∀ l : List Node, sizeOf l < N →
      (∀ m ∈ findNewExprsList l, matchesPluginName [name] m = false) →
      rewriteNewExprsNamedList name f l = l) := by
  induction N with
  | zero => constructor <;> (intro x hx; omega)
  | succ N ih =>
    obtain ⟨ihn, ihl⟩ := ih
    constructor
    · intro n hs hm
      cases n <;> simp only [rewriteNewExprsNamed]
      case property kind k v =>
        simp [findNewExprs] at hm
        have h1 : sizeOf k < N := by simp_arith at hs; omega
        have h2 : sizeOf v < N := by simp_arith at hs; omega
        rw [ihn k h1 (fun m hmm => hm m (Or.inl hmm)),
          ihn v h2 (fun m hmm => hm m (Or.inr hmm))]
      case objectExpr ps =>
        simp only [findNewExprs] at hm
        have h1 : sizeOf ps < N := by simp_arith at hs; omega
        rw [ihl ps h1 hm]
      case arrayExpr es =>
        simp only [findNewExprs] at hm
        have h1 : sizeOf es < N := by simp_arith at hs; omega
        rw [ihl es h1 hm]
      case memberExpr o p =>
        simp [findNewExprs] at hm
        have h1 : sizeOf o < N := by simp_arith at hs; omega
        have h2 : sizeOf p < N := by simp_arith at hs; omega
        rw [ihn o h1 (fun m hmm => hm m (Or.inl hmm)),
          ihn p h2 (fun m hmm => hm m (Or.inr hmm))]
      case newExpr c args =>
        simp [findNewExprs] at hm
        obtain ⟨hp, hrest⟩ := hm
        have h1 : sizeOf c < N := by simp_arith at hs; omega
        have h2 : sizeOf args < N := by simp_arith at hs; omega
        simp [hp, ihn c h1 (fun m hmm => hrest m (Or.inl hmm)),
          ihl args h2 (fun m hmm => hrest m (Or.inr hmm))]
      all_goals rfl
    · intro l hs hm
      cases l with
      | nil => rfl
      | cons n rest =>
        simp [findNewExprsList] at hm
        have h1 : sizeOf n < N := by simp_arith at hs; omega
        have h2 : sizeOf rest < N := by simp_arith at hs; omega
        simp only [rewriteNewExprsNamedList]
        rw [ihn n h1 (fun m hmm => hm m (Or.inl hmm)),
          ihl rest h2 (fun m hmm => hm m (Or.inr hmm))]

theorem findNewExprsList_append (l1 l2 : List Node) :
    findNewExprsList (l1 ++ l2) = findNewExprsList l1 ++ findNewExprsList l2 := by
  induction l1 with
  | nil => simp [findNewExprsList]
  | cons n rest ih => simp [findNewExprsList, ih]

theorem rewriteNewExprsNamedList_append (name : String) (f : Node → Node) (l1 l2 : List Node) :
    rewriteNewExprsNamedList name f (l1 ++ l2) =
      rewriteNewExprsNamedList name f l1 ++ rewriteNewExprsNamedList name f l2 := by
  induction l1 with
  | nil => simp [rewriteNewExprsNamedList]
  | cons n rest ih => simp [rewriteNewExprsNamedList, ih]

/-- C3: on a plugins array with no constructor call matching the dotted
name, `createOrUpdatePluginByName` appends exactly one new constructor-call
element, whose callee is the name split on `"."` and expanded into nested
member access, resolving back through `memberExpressionToPathString` to the
given dotted name, with a single object-expression argument built from the
options description. -/
theorem C3_plugin_insert_not_found (elements : List Node) (pluginName : String)
    (opts : List (String × JSValue))
    (hnone : findPluginsByName (Node.arrayExpr elements) [pluginName] = []) :
    createOrUpdatePluginByName (Node.arrayExpr elements) pluginName (some opts) =
      Node.arrayExpr (elements ++
        [Node.newExpr (pathsToMemberExpression (splitOnDot pluginName).reverse)
          [Node.objectExpr (opts.map fun kv => createProperty kv.1 kv.2)]]) ∧
    memberExpressionToPathString (pathsToMemberExpression (splitOnDot pluginName).reverse) =
      some pluginName := by
  constructor
  · unfold createOrUpdatePluginByName
    simp [hnone]
  · rw [mETPS_pathsToMemberExpression _ (by simp [splitOnDot_ne_nil]), List.reverse_reverse,
      dotJoin_splitOnDot]

/-- Witness for C3: an empty plugins array gains one
`new webpack.optimize.DedupePlugin({sourceMap: true})` call. -/
theorem C3_plugin_insert_not_found_witness :
    findPluginsByName (Node.arrayExpr []) ["webpack.optimize.DedupePlugin"] = [] ∧
    (createOrUpdatePluginByName (Node.arrayExpr []) "webpack.optimize.DedupePlugin"
        (some [("sourceMap", .prim (.pBool true))]) =
      Node.arrayExpr ([] ++
        [Node.newExpr
          (pathsToMemberExpression (splitOnDot "webpack.optimize.DedupePlugin").reverse)
          [Node.objectExpr
            ([(("sourceMap" : String), JSValue.prim (.pBool true))].map fun kv =>
              createProperty kv.1 kv.2)]]) ∧
     memberExpressionToPathString
        (pathsToMemberExpression (splitOnDot "webpack.optimize.DedupePlugin").reverse) =
       some "webpack.optimize.DedupePlugin") ∧
    pathsToMemberExpression (splitOnDot "webpack.optimize.DedupePlugin").reverse =
      Node.memberExpr (Node.memberExpr (.ident "webpack") (.ident "optimize"))
        (.ident "DedupePlugin") ∧
    createProperty "sourceMap" (.prim (.pBool true)) =
      Node.property "init" (.ident "sourceMap") (.lit (.prim (.pBool true))) :=
  ⟨rfl, C3_plugin_insert_not_found [] "webpack.optimize.DedupePlugin" _ rfl, by decide, by decide⟩

theorem createProperty_keyFieldValue_not_string (key : String) (v : JSValue) (name : String) :
    jsStrictEqValueName (keyFieldValue (createProperty key v)) name = false := by
  by_cases h1 : key = "true"
  · simp [createProperty, createIdentifierOrLiteral, h1, jsNumber_true_eq_none,
      keyFieldValue, jsStrictEqValueName]
  · by_cases h2 : key = "false"
    · simp [createProperty, createIdentifierOrLiteral, h1, h2, jsNumber_false_eq_none,
        keyFieldValue, jsStrictEqValueName]
    · cases hn : jsNumber key <;>
        simp [createProperty, createIdentifierOrLiteral, h1, h2, hn, keyFieldValue,
          jsStrictEqValueName]

/-- The replace branch of the option merge is dead code for properties built
by `createProperty`: the comparison `opt.key.value === path.value.name` pits
an `undefined`/boolean/number key value against an identifier name string,
so strict equality never holds and the option is always appended. -/
theorem mergeOptStep_appends (props : List Node) (key : String) (v : JSValue) :
    mergeOptStep props (createProperty key v) = props ++ [createProperty key v] := by
  unfold mergeOptStep
  have h : (props.any fun p =>
      (identNames p).any (jsStrictEqValueName (keyFieldValue (createProperty key v)))) =
        false := by
    simp only [List.any_eq_false]
    intro p _
    simp [List.any_eq_true, createProperty_keyFieldValue_not_string]
  rw [h]
  simp

/-- C4 fails on the code: upserting `{A: "2"}` into an existing
`new webpack.DefinePlugin({A: 1})` appends a second `A` property instead of
replacing the first — the key search compares `opt.key.value` (undefined for
identifier keys) with identifier names, so it never matches, although the
source's own comments say it searches for same keys and replaces their
values.  The resulting argument object carries two properties for the key
`A`. -/
theorem C4_duplicate_key_appended :
    createOrUpdatePluginByName
        (Node.arrayExpr
          [Node.newExpr (Node.memberExpr (.ident "webpack") (.ident "DefinePlugin"))
            [Node.objectExpr [Node.property "init" (.ident "A") (.lit (.prim (.pNum 1)))]]])
        "webpack.DefinePlugin" (some [("A", .prim (.pStr "2"))]) =
      Node.arrayExpr
        [Node.newExpr (Node.memberExpr (.ident "webpack") (.ident "DefinePlugin"))
          [Node.objectExpr
            [Node.property "init" (.ident "A") (.lit (.prim (.pNum 1))),
             Node.property "init" (.ident "A") (.lit (.prim (.pNum 2)))]]] ∧
    ((pProps (Node.objectExpr
        [Node.property "init" (.ident "A") (.lit (.prim (.pNum 1))),
         Node.property "init" (.ident "A") (.lit (.prim (.pNum 2)))])).filter
      (fun p => safeTraverseKeyName p == some "A")).length = 2 := by
  constructor
  · decide
  · decide

/-- C7: a plugins array already containing a zero-argument constructor call
for the dotted name has exactly that call mutated: it gains one argument, an
object-expression built from the options via `createProperty` (scalar values
coerced); the surrounding elements are untouched and nothing is appended. -/
theorem C7_attach_argument_to_noarg_call (pre post : List Node) (c : Node) (name : String)
    (opts : List (String × JSValue))
    (hc : memberExpressionToPathString c = some name)
    (hcClean : findPluginsByName c [name] = [])
    (hpre : findPluginsByName (Node.arrayExpr pre) [name] = [])
    (hpost : findPluginsByName (Node.arrayExpr post) [name] = []) :
    createOrUpdatePluginByName (Node.arrayExpr (pre ++ Node.newExpr c [] :: post)) name
        (some opts) =
      Node.arrayExpr (pre ++
        Node.newExpr c [Node.objectExpr (opts.map fun kv => createProperty kv.1 kv.2)] ::
          post) := by
  have hmatch : matchesPluginName [name] (Node.newExpr c []) = true := by
    simp [matchesPluginName, hc]
  simp only [findPluginsByName, findNewExprs] at hpre hpost hcClean
  simp only [List.filter_eq_nil_iff] at hpre hpost hcClean
  have hfull : findPluginsByName
      (Node.arrayExpr (pre ++ Node.newExpr c [] :: post)) [name] =
        [Node.newExpr c []] := by
    simp only [findPluginsByName, findNewExprs, findNewExprsList_append, findNewExprsList,
      List.filter_append, List.filter_cons]
    rw [List.filter_eq_nil_iff.mpr hpre, List.filter_eq_nil_iff.mpr hpost,
      List.filter_eq_nil_iff.mpr hcClean]
    simp [hmatch]
  unfold createOrUpdatePluginByName
  rw [hfull]
  simp only [List.length_cons, List.length_nil, ne_eq, Nat.succ_ne_zero, not_false_eq_true,
    if_true, reduceIte, Option.map_some']
  rw [show rewriteNewExprsNamed name
      (updateFoundPlugin (opts.map fun kv => createProperty kv.1 kv.2))
      (Node.arrayExpr (pre ++ Node.newExpr c [] :: post)) =
    Node.arrayExpr (rewriteNewExprsNamedList name
      (updateFoundPlugin (opts.map fun kv => createProperty kv.1 kv.2))
      (pre ++ Node.newExpr c [] :: post)) from rfl]
  rw [rewriteNewExprsNamedList_append]
  have hpre2 := (rewriteNewExprsNamed_noMatch name
    (updateFoundPlugin (opts.map fun kv => createProperty kv.1 kv.2)) (sizeOf pre + 1)).2
    pre (Nat.lt_succ_self _) (by intro m hm; exact by simpa using hpre m (by simpa using hm))
  have hpost2 := (rewriteNewExprsNamed_noMatch name
    (updateFoundPlugin (opts.map fun kv => createProperty kv.1 kv.2)) (sizeOf post + 1)).2
    post (Nat.lt_succ_self _) (by intro m hm; exact by simpa using hpost m (by simpa using hm))
  have hc2 := (rewriteNewExprsNamed_noMatch name
    (updateFoundPlugin (opts.map fun kv => createProperty kv.1 kv.2)) (sizeOf c + 1)).1
    c (Nat.lt_succ_self _) (by intro m hm; exact by simpa using hcClean m (by simpa using hm))
  rw [hpre2]
  rw [show rewriteNewExprsNamedList name
      (updateFoundPlugin (opts.map fun kv => createProperty kv.1 kv.2))
      (Node.newExpr c [] :: post) =
    rewriteNewExprsNamed name
        (updateFoundPlugin (opts.map fun kv => createProperty kv.1 kv.2))
        (Node.newExpr c []) ::
      rewriteNewExprsNamedList name
        (updateFoundPlugin (opts.map fun kv => createProperty kv.1 kv.2)) post from rfl]
  rw [hpost2]
  simp only [rewriteNewExprsNamed, rewriteNewExprsNamedList, hmatch, if_true, hc2]
  simp [updateFoundPlugin]

/-- Witness for C7: an array containing `new webpack.DefinePlugin()` and
options `{A: "1"}` — the existing call gains one argument `{A: 1}`,
numeric-coerced. -/
theorem C7_attach_argument_to_noarg_call_witness :
    memberExpressionToPathString (Node.memberExpr (.ident "webpack") (.ident "DefinePlugin")) =
      some "webpack.DefinePlugin" ∧
    (createOrUpdatePluginByName
        (Node.arrayExpr
          [Node.newExpr (Node.memberExpr (.ident "webpack") (.ident "DefinePlugin")) []])
        "webpack.DefinePlugin" (some [("A", .prim (.pStr "1"))]) =
      Node.arrayExpr
        [Node.newExpr (Node.memberExpr (.ident "webpack") (.ident "DefinePlugin"))
          [Node.objectExpr
            ([(("A" : String), JSValue.prim (.pStr "1"))].map fun kv =>
              createProperty kv.1 kv.2)]]) ∧
    createProperty "A" (.prim (.pStr "1")) =
      Node.property "init" (.ident "A") (.lit (.prim (.pNum 1))) := by
  refine ⟨by decide, ?_, by decide⟩
  have h := C7_attach_argument_to_noarg_call [] []
    (Node.memberExpr (.ident "webpack") (.ident "DefinePlugin")) "webpack.DefinePlugin"
    [("A", .prim (.pStr "1"))] (by decide) rfl rfl rfl
  simpa using h

/-- Values with or without a `.type` field: `pushCreateProperty` receives
either an already-built AST node (e.g. the fresh `j.objectExpression([])` in
`pushObjectKeys`) or a plain description value. -/
inductive NodeOrVal where
  | node (n : Node)
  | val (v : JSValue)

/-- `pushCreateProperty(j, p, key, val)`: a value carrying a `.type` field is
already an AST node and becomes the property value directly; anything else
goes through `createIdentifierOrLiteral`.  The built property is pushed onto
`p.value.properties`. -/
def pushCreateProperty (p : Node) (key : String) (val : NodeOrVal) : Node :=
  let property :=
    match val with
    | .node n => n
    | .val v => createIdentifierOrLiteral v
  pSetProps p (pProps p ++ [createObjectWithSuppliedProperty key property])

/-- Replaces element `i` of a list, returning the list unchanged when `i` is
out of range — the positional model of mutating a node reference obtained
from a filter over the list. -/
def modifyAt (f : Node → Node) : Nat → List Node → List Node
  | _, [] => []
  | 0, x :: xs => f x :: xs
  | n + 1, x :: xs => x :: modifyAt f n xs

/-- `prop.value = value`: overwrite a property node's value field with the
raw description value (the source assigns the plain value, not an AST
node). -/
def setPropValueRaw (value : JSValue) : Node → Node
  | .property kind key _ => .property kind key (.raw value)
  | n => n

/-- The list-level step of `checkIfExistsAndAddValue` on
`node.value.properties`: the first property whose `key.name` equals `key`
(`existingProp[0]`) has its value overwritten with the raw `value`; when none
matches, `j.property("init", j.identifier(key), value)` is pushed. -/
def ckList (key : String) (value : JSValue) (props : List Node) : List Node :=
  match props.findIdx? (fun prop => safeTraverseKeyName prop == some key) with
  | some i => modifyAt (setPropValueRaw value) i props
  | none => props ++ [Node.property "init" (.ident key) (.raw value)]

/-- `checkIfExistsAndAddValue(j, node, key, value)`: overwrite-first-or-push
on `node.value.properties`.  Only the first of several matching properties
is mutated. -/
def checkIfExistsAndAddValue (node : Node) (key : String) (value : JSValue) : Node :=
  pSetProps node (ckList key value (pProps node))

/-- `elem.value` as read by the reassign sequence merge: a literal's stored
value; identifiers, object expressions and other nodes have no `.value`
(`undefined`). -/
def elemValue : Node → Option JSValue
  | .lit v => some v
  | _ => none

/-- JavaScript truthiness of the value read from an element
(`if (elem.value)`): `0`, `""`, `false` are falsy, everything else truthy. -/
def jsTruthy : JSValue → Bool
  | .prim (.pNum n) => n != 0
  | .prim (.pStr s) => s != ""
  | .prim (.pBool b) => b
  | _ => true

/-- Modelled from the spec: the injected deduplication step `hashtable`
(`require("./hashtable")` — that file is not among the sources under
verification).  The spec fixes its semantics as dedupe-by-value with the
order of first occurrences preserved. -/
def dedupKeepFirst (seen : List JSValue) : List JSValue → List JSValue
  | [] => []
  | v :: rest =>
    if seen.contains v then dedupKeepFirst seen rest
    else v :: dedupKeepFirst (v :: seen) rest

/-- Modelled from the spec: `hashtable(arraytomerge)` deduplicates the merged
value list, keeping first occurrences in order. -/
def hashtable (l : List JSValue) : List JSValue :=
  dedupKeepFirst [] l

/-- The body of the reassign sequence merge in `pushObjectKeys`: collect the
truthy `.value`s of the existing elements into `arraytomerge`, append the new
description sequence, apply the injected dedupe, and push one
`createIdentifierOrLiteral` element per deduplicated value onto the existing
element list — which is never cleared
(`property.value.value.elements.push(...)`). -/
def mergeArrayProp (newSeq : List JSValue) (propNode : Node) : Node :=
  match propNode with
  | .property kind key (.arrayExpr elems) =>
    let arraytomerge :=
      (elems.filterMap fun e =>
        match elemValue e with
        | some v => if jsTruthy v then some v else none
        | none => none) ++ newSeq
    .property kind key
      (.arrayExpr (elems ++ (hashtable arraytomerge).map createIdentifierOrLiteral))
  | n => n

mutual

/-- Applies `f` to every property node whose `key.name` equals `k`, children
first, modelling `j(p).find(j.Property, {key: {name: k}}).filter(...).forEach`
— the query runs from the whole node `p` passed to `pushObjectKeys`, so
same-named properties anywhere under it are all mutated. -/
def rewritePropsNamed (k : String) (f : Node → Node) : Node → Node
  | .property kind key v =>
    let n2 := Node.property kind (rewritePropsNamed k f key) (rewritePropsNamed k f v)
    if safeTraverseKeyName (Node.property kind key v) == some k then f n2 else n2
  | .objectExpr ps => .objectExpr (rewritePropsNamedList k f ps)
  | .arrayExpr es => .arrayExpr (rewritePropsNamedList k f es)
  | .memberExpr o p => .memberExpr (rewritePropsNamed k f o) (rewritePropsNamed k f p)
  | .newExpr c args => .newExpr (rewritePropsNamed k f c) (rewritePropsNamedList k f args)
  | n => n

/-- `rewritePropsNamed` over a node list. -/
def rewritePropsNamedList (k : String) (f : Node → Node) : List Node → List Node
  | [] => []
  | n :: rest => rewritePropsNamed k f n :: rewritePropsNamedList k f rest

end

/-- The property of `p` at position `i` (`Node.jsNull` when out of range —
unreachable for indices produced by `matchedIdxs`). -/
def getPropAt (p : Node) (i : Nat) : Node :=
  (pProps p).getD i Node.jsNull

/-- Writes back the property at position `i`. -/
def setPropAt (p : Node) (i : Nat) (prop : Node) : Node :=
  pSetProps p (modifyAt (fun _ => prop) i (pProps p))

/-- The positions in `p.value.properties` of the properties passing the
filter `safeTraverse(n, ["key", "name"]) === name`.  The source's `forEach`
over node references is modelled by processing these positions in order;
the mutations preserve the length and keys of the list, so the positions
stay valid. -/
def matchedIdxsFrom (name : String) : Nat → List Node → List Nat
  | _, [] => []
  | i, n :: rest =>
    if safeTraverseKeyName n == some name then i :: matchedIdxsFrom name (i + 1) rest
    else matchedIdxsFrom name (i + 1) rest

/-- The matched positions of `p.value.properties`, counted from `0`. -/
def matchedIdxs (p : Node) (name : String) : List Nat :=
  matchedIdxsFrom name 0 (pProps p)

mutual

/-- `pushObjectKeys(j, p, webpackProperties, name, reassign)`: for every
property of `p` named `name`, iterate the description's keys in order.  An
injectable-marker key goes through `checkIfExistsAndAddValue` under reassign,
else pushes a bare `createIdentifierOrLiteral` node.  A sequence value under
reassign runs the global merge `mergeArrayProp` on every property named after
the key anywhere under `p`; without reassign it pushes a
`createArrayWithChildren` property.  A primitive (or `RegExp` / pre-parsed)
value goes through `pushCreateProperty`.  A nested mapping recurses, first
pushing a fresh `key: {}` property when reassign is off. -/
def pushObjectKeys (p : Node) (webpackProperties : List (String × JSValue)) (name : String)
    (reassign : Bool) : Node :=
  (matchedIdxs p name).foldl (fun q i => pokFields q i webpackProperties reassign) p
termination_by (JSValue.fieldsWeight webpackProperties, 1)
decreasing_by
  all_goals simp_wf
  all_goals
    first
    | (apply Prod.Lex.right
       omega)
    | (apply Prod.Lex.left
       simp_arith [JSValue.fieldsWeight, JSValue.weight])

/-- One matched property position of `pushObjectKeys`: the inner
`Object.keys(webpackProperties).forEach` body, threading the whole tree `q`
because the sequence branch queries from the root. -/
def pokFields (q : Node) (i : Nat) (fields : List (String × JSValue)) (reassign : Bool) :
    Node :=
  match fields with
  | [] => q
  | (k, v) :: rest =>
    let q2 :=
      if hasInjectMarker k then
        if reassign then setPropAt q i (checkIfExistsAndAddValue (getPropAt q i) k v)
        else
          setPropAt q i
            (pSetProps (getPropAt q i) (pProps (getPropAt q i) ++ [createIdentifierOrLiteral v]))
      else
        match v with
        | .arr es =>
          if reassign then rewritePropsNamed k (mergeArrayProp es) q
          else
            setPropAt q i
              (pSetProps (getPropAt q i)
                (pProps (getPropAt q i) ++ [createArrayWithChildrenDrop k es]))
        | .prim pr => setPropAt q i (pushCreateProperty (getPropAt q i) k (.val (.prim pr)))
        | .obj fs =>
          let prop := getPropAt q i
          let prop2 :=
            if !reassign then pushCreateProperty prop k (.node (.objectExpr [])) else prop
          setPropAt q i (pushObjectKeys prop2 fs k reassign)
    pokFields q2 i rest reassign
termination_by (JSValue.fieldsWeight fields, 0)
decreasing_by
  all_goals simp_wf
  all_goals
    first
    | (apply Prod.Lex.right
       omega)
    | (apply Prod.Lex.left
       simp_arith [JSValue.fieldsWeight, JSValue.weight])

end

theorem pushObjectKeys_eq (p : Node) (wp : List (String × JSValue)) (name : String)
    (reassign : Bool) :
    pushObjectKeys p wp name reassign =
      (matchedIdxs p name).foldl (fun q i => pokFields q i wp reassign) p := by
  rw [pushObjectKeys.eq_def]

theorem pokFields_nil (q : Node) (i : Nat) (reassign : Bool) :
    pokFields q i [] reassign = q := by
  conv_lhs => rw [pokFields.eq_def]

theorem pokFields_cons (q : Node) (i : Nat) (k : String) (v : JSValue)
    (rest : List (String × JSValue)) (reassign : Bool) :
    pokFields q i ((k, v) :: rest) reassign =
      pokFields
        (if hasInjectMarker k then
          if reassign then setPropAt q i (checkIfExistsAndAddValue (getPropAt q i) k v)
          else
            setPropAt q i
              (pSetProps (getPropAt q i)
                (pProps (getPropAt q i) ++ [createIdentifierOrLiteral v]))
        else
          match v with
          | .arr es =>
            if reassign then rewritePropsNamed k (mergeArrayProp es) q
            else
              setPropAt q i
                (pSetProps (getPropAt q i)
                  (pProps (getPropAt q i) ++ [createArrayWithChildrenDrop k es]))
          | .prim pr => setPropAt q i (pushCreateProperty (getPropAt q i) k (.val (.prim pr)))
          | .obj fs =>
            setPropAt q i
              (pushObjectKeys
                (if !reassign then
                  pushCreateProperty (getPropAt q i) k (.node (.objectExpr []))
                else getPropAt q i)
                fs k reassign))
        i rest reassign := by
  conv_lhs => rw [pokFields.eq_def]

/-- C6 fails on the code: merging the description sequence `[2, 3]` into an
existing `rules: [1, 2]` property under reassign pushes the deduplicated
union `[1, 2, 3]` after the existing elements instead of rebuilding the
list.  The result is `[1, 2, 1, 2, 3]`: the dedupe step ran, yet the value
`2` (the claim's `b`) appears twice because the existing elements are never
cleared. -/
theorem C6_reassign_array_merge_duplicates :
    pushObjectKeys
        (Node.objectExpr
          [Node.property "init" (.ident "module")
            (.objectExpr
              [Node.property "init" (.ident "rules")
                (.arrayExpr [Node.lit (.prim (.pNum 1)), Node.lit (.prim (.pNum 2))])])])
        [("rules", .arr [.prim (.pNum 2), .prim (.pNum 3)])] "module" true =
      Node.objectExpr
        [Node.property "init" (.ident "module")
          (.objectExpr
            [Node.property "init" (.ident "rules")
              (.arrayExpr
                [Node.lit (.prim (.pNum 1)), Node.lit (.prim (.pNum 2)),
                 Node.lit (.prim (.pNum 1)), Node.lit (.prim (.pNum 2)),
                 Node.lit (.prim (.pNum 3))])])] ∧
    [Node.lit (.prim (.pNum 1)), Node.lit (.prim (.pNum 2)), Node.lit (.prim (.pNum 1)),
        Node.lit (.prim (.pNum 2)), Node.lit (.prim (.pNum 3))].count
      (Node.lit (.prim (.pNum 2))) = 2 ∧
    hashtable [.prim (.pNum 1), .prim (.pNum 2), .prim (.pNum 2), .prim (.pNum 3)] =
      [.prim (.pNum 1), .prim (.pNum 2), .prim (.pNum 3)] := by
  refine ⟨?_, by decide, by decide⟩
  rw [pushObjectKeys_eq]
  rw [show matchedIdxs
      (Node.objectExpr
        [Node.property "init" (.ident "module")
          (.objectExpr
            [Node.property "init" (.ident "rules")
              (.arrayExpr [Node.lit (.prim (.pNum 1)), Node.lit (.prim (.pNum 2))])])])
      "module" = [0] from by decide]
  simp only [List.foldl_cons, List.foldl_nil]
  rw [pokFields_cons, pokFields_nil]
  decide

/-- Counterexample to C5 as stated: applying the create-then-reassign merge
twice with the same description is not equivalent to applying it once.  A
plain scalar key (here `rules: "loader"`) is pushed again by the second
application — only injectable-marker keys go through the overwriting
`checkIfExistsAndAddValue`; plain scalars always `pushCreateProperty`. -/
theorem C5_counterexample :
    ¬ (pushObjectKeys
        (pushObjectKeys
          (Node.objectExpr [Node.property "init" (.ident "module") (.objectExpr [])])
          [("rules", .prim (.pStr "loader"))] "module" true)
        [("rules", .prim (.pStr "loader"))] "module" true =
      pushObjectKeys
        (Node.objectExpr [Node.property "init" (.ident "module") (.objectExpr [])])
        [("rules", .prim (.pStr "loader"))] "module" true) := by
  have E1 : pushObjectKeys
      (Node.objectExpr [Node.property "init" (.ident "module") (.objectExpr [])])
      [("rules", .prim (.pStr "loader"))] "module" true =
      Node.objectExpr
        [Node.property "init" (.ident "module")
          (.objectExpr
            [Node.property "init" (.ident "rules") (.ident "loader")])] := by
    rw [pushObjectKeys_eq]
    rw [show matchedIdxs
        (Node.objectExpr [Node.property "init" (.ident "module") (.objectExpr [])])
        "module" = [0] from by decide]
    simp only [List.foldl_cons, List.foldl_nil]
    rw [pokFields_cons, pokFields_nil]
    decide
  have E2 : pushObjectKeys
      (Node.objectExpr
        [Node.property "init" (.ident "module")
          (.objectExpr
            [Node.property "init" (.ident "rules") (.ident "loader")])])
      [("rules", .prim (.pStr "loader"))] "module" true =
      Node.objectExpr
        [Node.property "init" (.ident "module")
          (.objectExpr
            [Node.property "init" (.ident "rules") (.ident "loader"),
             Node.property "init" (.ident "rules") (.ident "loader")])] := by
    rw [pushObjectKeys_eq]
    rw [show matchedIdxs
        (Node.objectExpr
          [Node.property "init" (.ident "module")
            (.objectExpr
              [Node.property "init" (.ident "rules") (.ident "loader")])])
        "module" = [0] from by decide]
    simp only [List.foldl_cons, List.foldl_nil]
    rw [pokFields_cons, pokFields_nil]
    decide
  rw [E1, E2]
  decide

/-- Shapes on which the duck-typed `x.value.properties` access succeeds. -/
def isPObj : Node → Bool
  | .objectExpr _ => true
  | .property _ _ (.objectExpr _) => true
  | _ => false

theorem pProps_eq_nil_of_not_isPObj (q : Node) (h : isPObj q = false) : pProps q = [] := by
  cases q <;> simp_all [isPObj, pProps]
  case property kind k v => cases v <;> simp_all [isPObj, pProps]

theorem pProps_pSetProps (q : Node) (l : List Node) (h : isPObj q = true) :
    pProps (pSetProps q l) = l := by
  cases q <;> simp_all [isPObj, pSetProps, pProps]
  case property kind k v => cases v <;> simp_all [isPObj, pSetProps, pProps]

theorem isPObj_pSetProps (q : Node) (l : List Node) (h : isPObj q = true) :
    isPObj (pSetProps q l) = true := by
  cases q <;> simp_all [isPObj, pSetProps]
  case property kind k v => cases v <;> simp_all [isPObj, pSetProps]

theorem pSetProps_pProps_self (q : Node) (h : isPObj q = true) :
    pSetProps q (pProps q) = q := by
  cases q <;> simp_all [isPObj, pSetProps, pProps]
  case property kind k v => cases v <;> simp_all [isPObj, pSetProps, pProps]

theorem pSetProps_pSetProps (q : Node) (a b : List Node) :
    pSetProps (pSetProps q a) b = pSetProps q b := by
  cases q <;> simp_all [pSetProps]
  case property kind k v => cases v <;> simp_all [pSetProps]

theorem pSetProps_not_isPObj (q : Node) (l : List Node) (h : isPObj q = false) :
    pSetProps q l = q := by
  cases q <;> simp_all [isPObj, pSetProps]
  case property kind k v => cases v <;> simp_all [isPObj, pSetProps]

theorem keyName_pSetProps (q : Node) (l : List Node) :
    safeTraverseKeyName (pSetProps q l) = safeTraverseKeyName q := by
  cases q <;> simp_all [pSetProps, safeTraverseKeyName]
  case property kind k v => cases v <;> simp_all [pSetProps, safeTraverseKeyName]

theorem modifyAt_length (f : Node → Node) (i : Nat) (l : List Node) :
    (modifyAt f i l).length = l.length := by
  induction l generalizing i with
  | nil => simp [modifyAt]
  | cons x xs ih =>
    cases i with
    | zero => simp [modifyAt]
    | succ n => simp [modifyAt, ih]

theorem modifyAt_getD_eq (f : Node → Node) (i : Nat) (l : List Node) (d : Node)
    (h : i < l.length) : (modifyAt f i l).getD i d = f (l.getD i d) := by
  induction l generalizing i with
  | nil => simp at h
  | cons x xs ih =>
    cases i with
    | zero => simp [modifyAt]
    | succ n =>
      simpa [modifyAt] using ih n (by simpa using h)

theorem modifyAt_getD_ne (f : Node → Node) (i j : Nat) (l : List Node) (d : Node)
    (h : j ≠ i) : (modifyAt f i l).getD j d = l.getD j d := by
  induction l generalizing i j with
  | nil => simp [modifyAt]
  | cons x xs ih =>
    cases i with
    | zero =>
      cases j with
      | zero => simp at h
      | succ m => simp [modifyAt]
    | succ n =>
      cases j with
      | zero => simp [modifyAt]
      | succ m =>
        simpa [modifyAt] using ih n m (by omega)

theorem modifyAt_modifyAt_same (x : Node) (g : Node → Node) (i : Nat) (l : List Node) :
    modifyAt (fun _ => x) i (modifyAt g i l) = modifyAt (fun _ => x) i l := by
  induction l generalizing i with
  | nil => simp [modifyAt]
  | cons y ys ih =>
    cases i with
    | zero => simp [modifyAt]
    | succ n => simp [modifyAt, ih]

theorem modifyAt_self (i : Nat) (l : List Node) (d : Node) (h : i < l.length) :
    modifyAt (fun _ => l.getD i d) i l = l := by
  induction l generalizing i with
  | nil => simp at h
  | cons x xs ih =>
    cases i with
    | zero => simp [modifyAt]
    | succ n =>
      simpa [modifyAt] using ih n (by simpa using h)

theorem modifyAt_map_keyName (x : Node) (i : Nat) (l : List Node)
    (h : safeTraverseKeyName x = safeTraverseKeyName (l.getD i Node.jsNull)) :
    (modifyAt (fun _ => x) i l).map safeTraverseKeyName = l.map safeTraverseKeyName := by
  induction l generalizing i with
  | nil => simp [modifyAt]
  | cons y ys ih =>
    cases i with
    | zero => simp_all [modifyAt]
    | succ n =>
      simp only [modifyAt, List.map_cons]
      rw [ih n (by simpa using h)]

theorem pProps_setPropAt (q : Node) (i : Nat) (x : Node) (h : isPObj q = true) :
    pProps (setPropAt q i x) = modifyAt (fun _ => x) i (pProps q) := by
  simp [setPropAt, pProps_pSetProps q _ h]

theorem isPObj_setPropAt (q : Node) (i : Nat) (x : Node) (h : isPObj q = true) :
    isPObj (setPropAt q i x) = true := by
  simp [setPropAt, isPObj_pSetProps q _ h]

theorem length_setPropAt (q : Node) (i : Nat) (x : Node) (h : isPObj q = true) :
    (pProps (setPropAt q i x)).length = (pProps q).length := by
  simp [pProps_setPropAt q i x h, modifyAt_length]

theorem getPropAt_setPropAt_eq (q : Node) (i : Nat) (x : Node) (h : isPObj q = true)
    (hi : i < (pProps q).length) : getPropAt (setPropAt q i x) i = x := by
  simp [getPropAt, pProps_setPropAt q i x h]
  have := modifyAt_getD_eq (fun _ => x) i (pProps q) Node.jsNull hi
  simpa using this

theorem getPropAt_setPropAt_ne (q : Node) (i j : Nat) (x : Node) (h : isPObj q = true)
    (hij : j ≠ i) : getPropAt (setPropAt q i x) j = getPropAt q j := by
  simp [getPropAt, pProps_setPropAt q i x h]
  have := modifyAt_getD_ne (fun _ => x) i j (pProps q) Node.jsNull hij
  simpa using this

theorem setPropAt_setPropAt_same (q : Node) (i : Nat) (x y : Node) (h : isPObj q = true) :
    setPropAt (setPropAt q i x) i y = setPropAt q i y := by
  simp [setPropAt, pProps_pSetProps q _ h, pSetProps_pSetProps, modifyAt_modifyAt_same]

theorem setPropAt_self (q : Node) (i : Nat) (h : isPObj q = true)
    (hi : i < (pProps q).length) : setPropAt q i (getPropAt q i) = q := by
  simp only [setPropAt, getPropAt]
  rw [modifyAt_self i (pProps q) Node.jsNull hi, pSetProps_pProps_self q h]

theorem setPropAt_not_isPObj (q : Node) (i : Nat) (x : Node) (h : isPObj q = false) :
    setPropAt q i x = q := by
  simp [setPropAt, pSetProps_not_isPObj q _ h]

theorem keyName_setPropValueRaw (v : JSValue) (x : Node) :
    safeTraverseKeyName (setPropValueRaw v x) = safeTraverseKeyName x := by
  cases x <;> simp [setPropValueRaw, safeTraverseKeyName]

theorem setPropValueRaw_idem (v : JSValue) (x : Node) :
    setPropValueRaw v (setPropValueRaw v x) = setPropValueRaw v x := by
  cases x <;> simp [setPropValueRaw]

theorem ckList_nil (key : String) (v : JSValue) :
    ckList key v [] = [Node.property "init" (.ident key) (.raw v)] := rfl

theorem ckList_cons_match (key : String) (v : JSValue) (x : Node) (xs : List Node)
    (h : (safeTraverseKeyName x == some key) = true) :
    ckList key v (x :: xs) = setPropValueRaw v x :: xs := by
  simp [ckList, List.findIdx?_cons, h, modifyAt]

theorem ckList_cons_nomatch (key : String) (v : JSValue) (x : Node) (xs : List Node)
    (h : (safeTraverseKeyName x == some key) = false) :
    ckList key v (x :: xs) = x :: ckList key v xs := by
  simp only [ckList, List.findIdx?_cons, h, Bool.false_eq_true, if_false, List.findIdx?_succ]
  cases hfi : xs.findIdx? (fun prop => safeTraverseKeyName prop == some key) with
  | none => simp [hfi, modifyAt]
  | some i => simp [hfi, modifyAt]

theorem newCkProp_matches (key : String) (v : JSValue) :
    (safeTraverseKeyName (Node.property "init" (.ident key) (.raw v)) == some key) = true := by
  simp [safeTraverseKeyName, nodeName]

theorem ckList_stable_self (key : String) (v : JSValue) (l : List Node) :
    ckList key v (ckList key v l) = ckList key v l := by
  induction l with
  | nil =>
    rw [ckList_nil, ckList_cons_match key v _ _ (newCkProp_matches key v)]
    simp [setPropValueRaw]
  | cons x xs ih =>
    by_cases hx : (safeTraverseKeyName x == some key) = true
    · rw [ckList_cons_match key v x xs hx]
      have hx2 : (safeTraverseKeyName (setPropValueRaw v x) == some key) = true := by
        rw [keyName_setPropValueRaw]; exact hx
      rw [ckList_cons_match key v _ _ hx2, setPropValueRaw_idem]
    · have hx' : (safeTraverseKeyName x == some key) = false := by
        simpa using hx
      rw [ckList_cons_nomatch key v x xs hx', ckList_cons_nomatch key v x _ hx', ih]

theorem ckList_stable_other (key k2 : String) (v v2 : JSValue) (l : List Node)
    (hkk : k2 ≠ key) (hst : ckList key v l = l) :
    ckList key v (ckList k2 v2 l) = ckList k2 v2 l := by
  induction l with
  | nil =>
    exfalso
    rw [ckList_nil] at hst
    exact absurd hst (by simp)
  | cons x xs ih =>
    by_cases hx : (safeTraverseKeyName x == some key) = true
    · have hxeq : safeTraverseKeyName x = some key := by simpa using hx
      have hx2 : (safeTraverseKeyName x == some k2) = false := by
        simp [hxeq]
        intro hcontra
        exact hkk hcontra.symm
      rw [ckList_cons_match key v x xs hx] at hst
      have hspvr : setPropValueRaw v x = x := (List.cons.injEq _ _ _ _ ▸ hst).1
      rw [ckList_cons_nomatch k2 v2 x xs hx2]
      rw [ckList_cons_match key v x _ hx, hspvr]
    · have hx' : (safeTraverseKeyName x == some key) = false := by simpa using hx
      rw [ckList_cons_nomatch key v x xs hx'] at hst
      have hstx : ckList key v xs = xs := (List.cons.injEq _ _ _ _ ▸ hst).2
      by_cases hx2 : (safeTraverseKeyName x == some k2) = true
      · rw [ckList_cons_match k2 v2 x xs hx2]
        have hx3 : (safeTraverseKeyName (setPropValueRaw v2 x) == some key) = false := by
          rw [keyName_setPropValueRaw]; exact hx'
        rw [ckList_cons_nomatch key v _ _ hx3, hstx]
      · have hx2' : (safeTraverseKeyName x == some k2) = false := by simpa using hx2
        rw [ckList_cons_nomatch k2 v2 x xs hx2', ckList_cons_nomatch key v x _ hx', ih hstx]

theorem foldCkList_stable (key : String) (v : JSValue) (rest : List (String × JSValue))
    (l : List Node) (hst : ckList key v l = l)
    (hne : ∀ kv ∈ rest, kv.1 ≠ key) :
    ckList key v (rest.foldl (fun acc kv => ckList kv.1 kv.2 acc) l) =
      rest.foldl (fun acc kv => ckList kv.1 kv.2 acc) l := by
  induction rest generalizing l with
  | nil => simpa using hst
  | cons kv rest ih =>
    simp only [List.foldl_cons]
    exact ih (ckList kv.1 kv.2 l)
      (ckList_stable_other key kv.1 v kv.2 l (hne kv (by simp)) hst)
      (fun kv2 h2 => hne kv2 (List.mem_cons_of_mem _ h2))

theorem foldCkList_idem (d : List (String × JSValue)) (l : List Node)
    (hnd : (d.map Prod.fst).Nodup) :
    d.foldl (fun acc kv => ckList kv.1 kv.2 acc)
        (d.foldl (fun acc kv => ckList kv.1 kv.2 acc) l) =
      d.foldl (fun acc kv => ckList kv.1 kv.2 acc) l := by
  induction d generalizing l with
  | nil => simp
  | cons kv rest ih =>
    simp only [List.map_cons, List.nodup_cons] at hnd
    have hne : ∀ kv2 ∈ rest, kv2.1 ≠ kv.1 := by
      intro kv2 h2 heq
      exact hnd.1 (heq ▸ List.mem_map_of_mem Prod.fst h2)
    simp only [List.foldl_cons]
    rw [foldCkList_stable kv.1 kv.2 rest (ckList kv.1 kv.2 l) (ckList_stable_self _ _ _) hne]
    exact ih (ckList kv.1 kv.2 l) hnd.2

theorem ckFold_not_isPObj (d : List (String × JSValue)) (n : Node)
    (h : isPObj n = false) :
    d.foldl (fun nd kv => checkIfExistsAndAddValue nd kv.1 kv.2) n = n := by
  induction d with
  | nil => rfl
  | cons kv rest ih =>
    simp only [List.foldl_cons]
    rw [show checkIfExistsAndAddValue n kv.1 kv.2 = n from
      pSetProps_not_isPObj n _ h]
    exact ih

theorem ckFold_pSetProps_form (d : List (String × JSValue)) (n : Node)
    (h : isPObj n = true) :
    d.foldl (fun nd kv => checkIfExistsAndAddValue nd kv.1 kv.2) n =
      pSetProps n (d.foldl (fun acc kv => ckList kv.1 kv.2 acc) (pProps n)) := by
  induction d generalizing n with
  | nil => simp [pSetProps_pProps_self n h]
  | cons kv rest ih =>
    simp only [List.foldl_cons]
    rw [show checkIfExistsAndAddValue n kv.1 kv.2 =
        pSetProps n (ckList kv.1 kv.2 (pProps n)) from rfl]
    rw [ih (pSetProps n (ckList kv.1 kv.2 (pProps n))) (isPObj_pSetProps n _ h)]
    rw [pProps_pSetProps n _ h, pSetProps_pSetProps]

theorem ckFold_idem (d : List (String × JSValue)) (n : Node)
    (hnd : (d.map Prod.fst).Nodup) :
    d.foldl (fun nd kv => checkIfExistsAndAddValue nd kv.1 kv.2)
        (d.foldl (fun nd kv => checkIfExistsAndAddValue nd kv.1 kv.2) n) =
      d.foldl (fun nd kv => checkIfExistsAndAddValue nd kv.1 kv.2) n := by
  cases hob : isPObj n with
  | false => rw [ckFold_not_isPObj d n hob, ckFold_not_isPObj d n hob]
  | true =>
    rw [ckFold_pSetProps_form d n hob]
    rw [ckFold_pSetProps_form d _ (isPObj_pSetProps n _ hob)]
    rw [pProps_pSetProps n _ hob, pSetProps_pSetProps]
    rw [foldCkList_idem d (pProps n) hnd]

theorem keyName_ckFold (d : List (String × JSValue)) (n : Node) :
    safeTraverseKeyName (d.foldl (fun nd kv => checkIfExistsAndAddValue nd kv.1 kv.2) n) =
      safeTraverseKeyName n := by
  induction d generalizing n with
  | nil => rfl
  | cons kv rest ih =>
    simp only [List.foldl_cons]
    rw [ih (checkIfExistsAndAddValue n kv.1 kv.2)]
    exact keyName_pSetProps n _

theorem pokFields_inject_true (d : List (String × JSValue)) (q : Node) (i : Nat)
    (hinj : ∀ kv ∈ d, hasInjectMarker kv.1 = true)
    (hob : isPObj q = true) (hi : i < (pProps q).length) :
    pokFields q i d true =
      setPropAt q i
        (d.foldl (fun nd kv => checkIfExistsAndAddValue nd kv.1 kv.2) (getPropAt q i)) := by
  induction d generalizing q with
  | nil =>
    rw [pokFields_nil, List.foldl_nil, setPropAt_self q i hob hi]
  | cons kv rest ih =>
    obtain ⟨k, v⟩ := kv
    have hk : hasInjectMarker k = true := hinj (k, v) (List.mem_cons_self _ _)
    rw [pokFields_cons]
    simp only [hk, eq_self_iff_true, if_true]
    rw [ih (setPropAt q i (checkIfExistsAndAddValue (getPropAt q i) k v))
        (fun kv2 h2 => hinj kv2 (List.mem_cons_of_mem _ h2))
        (isPObj_setPropAt q i _ hob)
        (by rw [length_setPropAt q i _ hob]; exact hi)]
    rw [getPropAt_setPropAt_eq q i _ hob hi]
    rw [setPropAt_setPropAt_same q i _ _ hob]
    simp only [List.foldl_cons]

theorem pokFoldIdx_stable (d : List (String × JSValue)) (js : List Nat) (q : Node)
    (hinj : ∀ kv ∈ d, hasInjectMarker kv.1 = true)
    (hob : isPObj q = true)
    (hbnd : ∀ i ∈ js, i < (pProps q).length)
    (hstab : ∀ i ∈ js,
      d.foldl (fun nd kv => checkIfExistsAndAddValue nd kv.1 kv.2) (getPropAt q i) =
        getPropAt q i) :
    js.foldl (fun q2 i => pokFields q2 i d true) q = q := by
  induction js with
  | nil => rfl
  | cons j js ih =>
    simp only [List.foldl_cons]
    have hj : j < (pProps q).length := hbnd j (List.mem_cons_self _ _)
    have E : pokFields q j d true = q := by
      rw [pokFields_inject_true d q j hinj hob hj, hstab j (List.mem_cons_self _ _),
        setPropAt_self q j hob hj]
    rw [E]
    exact ih (fun i hi => hbnd i (List.mem_cons_of_mem _ hi))
      (fun i hi => hstab i (List.mem_cons_of_mem _ hi))

theorem pokFoldIdx_makes_stable (d : List (String × JSValue)) (js : List Nat) (q : Node)
    (hinj : ∀ kv ∈ d, hasInjectMarker kv.1 = true)
    (hnd : (d.map Prod.fst).Nodup)
    (hob : isPObj q = true)
    (hbnd : ∀ i ∈ js, i < (pProps q).length) :
    isPObj (js.foldl (fun q2 i => pokFields q2 i d true) q) = true ∧
    (pProps (js.foldl (fun q2 i => pokFields q2 i d true) q)).length =
      (pProps q).length ∧
    (pProps (js.foldl (fun q2 i => pokFields q2 i d true) q)).map safeTraverseKeyName =
      (pProps q).map safeTraverseKeyName ∧
    (∀ i ∈ js,
      d.foldl (fun nd kv => checkIfExistsAndAddValue nd kv.1 kv.2)
          (getPropAt (js.foldl (fun q2 i => pokFields q2 i d true) q) i) =
        getPropAt (js.foldl (fun q2 i => pokFields q2 i d true) q) i) ∧
    (∀ i,
      d.foldl (fun nd kv => checkIfExistsAndAddValue nd kv.1 kv.2) (getPropAt q i) =
        getPropAt q i →
      d.foldl (fun nd kv => checkIfExistsAndAddValue nd kv.1 kv.2)
          (getPropAt (js.foldl (fun q2 i => pokFields q2 i d true) q) i) =
        getPropAt (js.foldl (fun q2 i => pokFields q2 i d true) q) i) := by
  induction js generalizing q with
  | nil => exact ⟨hob, rfl, rfl, by simp, fun i h => h⟩
  | cons j js ih =>
    simp only [List.foldl_cons]
    have hj : j < (pProps q).length := hbnd j (List.mem_cons_self _ _)
    have hP : pokFields q j d true =
        setPropAt q j
          (d.foldl (fun nd kv => checkIfExistsAndAddValue nd kv.1 kv.2) (getPropAt q j)) :=
      pokFields_inject_true d q j hinj hob hj
    have hob' : isPObj (pokFields q j d true) = true := by
      rw [hP]; exact isPObj_setPropAt q j _ hob
    have hlen' : (pProps (pokFields q j d true)).length = (pProps q).length := by
      rw [hP]; exact length_setPropAt q j _ hob
    have hkeys' : (pProps (pokFields q j d true)).map safeTraverseKeyName =
        (pProps q).map safeTraverseKeyName := by
      rw [hP, pProps_setPropAt q j _ hob]
      exact modifyAt_map_keyName _ j (pProps q) (keyName_ckFold d (getPropAt q j))
    have hstabj :
        d.foldl (fun nd kv => checkIfExistsAndAddValue nd kv.1 kv.2)
            (getPropAt (pokFields q j d true) j) =
          getPropAt (pokFields q j d true) j := by
      rw [hP, getPropAt_setPropAt_eq q j _ hob hj]
      exact ckFold_idem d (getPropAt q j) hnd
    have hpres : ∀ i,
        d.foldl (fun nd kv => checkIfExistsAndAddValue nd kv.1 kv.2) (getPropAt q i) =
          getPropAt q i →
        d.foldl (fun nd kv => checkIfExistsAndAddValue nd kv.1 kv.2)
            (getPropAt (pokFields q j d true) i) =
          getPropAt (pokFields q j d true) i := by
      intro i hi
      by_cases hij : i = j
      · subst hij; exact hstabj
      · rw [hP, getPropAt_setPropAt_ne q j i _ hob hij]
        exact hi
    have hbnd' : ∀ i ∈ js, i < (pProps (pokFields q j d true)).length := by
      intro i hi
      rw [hlen']
      exact hbnd i (List.mem_cons_of_mem _ hi)
    obtain ⟨h1, h2, h3, h4, h5⟩ := ih (pokFields q j d true) hob' hbnd'
    refine ⟨h1, h2.trans hlen', h3.trans hkeys', ?_, fun i hi => h5 i (hpres i hi)⟩
    intro i hi
    rcases List.mem_cons.mp hi with hij | hmem
    · subst hij; exact h5 i hstabj
    · exact h4 i hmem

theorem matchedIdxsFrom_lt (name : String) (j : Nat) (l : List Node) :
    ∀ i ∈ matchedIdxsFrom name j l, i < j + l.length := by
  induction l generalizing j with
  | nil => simp [matchedIdxsFrom]
  | cons x xs ih =>
    intro i hi
    simp only [matchedIdxsFrom] at hi
    split at hi
    · rcases List.mem_cons.mp hi with h | h
      · subst h
        simp only [List.length_cons]
        omega
      · have h2 := ih (j + 1) i h
        simp only [List.length_cons]
        omega
    · have h2 := ih (j + 1) i hi
      simp only [List.length_cons]
      omega

theorem matchedIdxsFrom_congr (name : String) (j : Nat) (l l2 : List Node)
    (h : l.map safeTraverseKeyName = l2.map safeTraverseKeyName) :
    matchedIdxsFrom name j l = matchedIdxsFrom name j l2 := by
  induction l generalizing j l2 with
  | nil =>
    cases l2 with
    | nil => rfl
    | cons y ys => simp at h
  | cons x xs ih =>
    cases l2 with
    | nil => simp at h
    | cons y ys =>
      simp only [List.map_cons, List.cons.injEq] at h
      simp only [matchedIdxsFrom, h.1]
      rw [ih (j + 1) ys h.2]

theorem matchedIdxs_congr (p r : Node) (name : String)
    (h : (pProps r).map safeTraverseKeyName = (pProps p).map safeTraverseKeyName) :
    matchedIdxs r name = matchedIdxs p name :=
  matchedIdxsFrom_congr name 0 (pProps r) (pProps p) h

/-- C5 amended: the create-then-reassign merge is idempotent on descriptions
all of whose keys carry the injectable marker and whose keys are pairwise
distinct — those keys go through the overwriting `checkIfExistsAndAddValue`,
so a second application with the same description rewrites every matched
property to the value it already has. -/
theorem C5_amended_inject_reassign_idempotent (p : Node) (d : List (String × JSValue))
    (name : String)
    (hinj : ∀ kv ∈ d, hasInjectMarker kv.1 = true)
    (hnd : (d.map Prod.fst).Nodup) :
    pushObjectKeys (pushObjectKeys p d name true) d name true =
      pushObjectKeys p d name true := by
  cases hob : isPObj p with
  | false =>
    have hm : matchedIdxs p name = [] := by
      simp [matchedIdxs, pProps_eq_nil_of_not_isPObj p hob, matchedIdxsFrom]
    have E : pushObjectKeys p d name true = p := by
      rw [pushObjectKeys_eq, hm]
      rfl
    rw [E]
    exact E
  | true =>
    have hbnd : ∀ i ∈ matchedIdxs p name, i < (pProps p).length := by
      intro i hi
      have h2 := matchedIdxsFrom_lt name 0 (pProps p) i hi
      omega
    obtain ⟨hobr, hlen, hkeys, hstab, -⟩ :=
      pokFoldIdx_makes_stable d (matchedIdxs p name) p hinj hnd hob hbnd
    have hfold : pushObjectKeys p d name true =
        (matchedIdxs p name).foldl (fun q2 i => pokFields q2 i d true) p :=
      pushObjectKeys_eq p d name true
    have hmr : matchedIdxs (pushObjectKeys p d name true) name = matchedIdxs p name := by
      rw [hfold]
      exact matchedIdxs_congr p _ name hkeys
    rw [pushObjectKeys_eq (pushObjectKeys p d name true) d name true, hmr, hfold]
    refine pokFoldIdx_stable d (matchedIdxs p name) _ hinj hobr ?_ hstab
    intro i hi
    rw [hlen]
    exact hbnd i hi

theorem C5_amended_inject_reassign_idempotent_witness :
    (∀ kv ∈ [(("injectType" : String), JSValue.prim (.pStr "x"))],
      hasInjectMarker kv.1 = true) ∧
    (([(("injectType" : String), JSValue.prim (.pStr "x"))].map Prod.fst).Nodup) ∧
    pushObjectKeys
        (pushObjectKeys
          (Node.objectExpr [Node.property "init" (.ident "module") (.objectExpr [])])
          [("injectType", JSValue.prim (.pStr "x"))] "module" true)
        [("injectType", JSValue.prim (.pStr "x"))] "module" true =
      pushObjectKeys
        (Node.objectExpr [Node.property "init" (.ident "module") (.objectExpr [])])
        [("injectType", JSValue.prim (.pStr "x"))] "module" true :=
  ⟨by decide, by decide,
    C5_amended_inject_reassign_idempotent
      (Node.objectExpr [Node.property "init" (.ident "module") (.objectExpr [])])
      [("injectType", JSValue.prim (.pStr "x"))] "module" (by decide) (by decide)⟩

theorem ckList_no_match_prefix (key : String) (v : JSValue) (qpre qpost : List Node)
    (x : Node)
    (hpre : ∀ y ∈ qpre, (safeTraverseKeyName y == some key) = false)
    (hx : (safeTraverseKeyName x == some key) = true) :
    ckList key v (qpre ++ x :: qpost) = qpre ++ setPropValueRaw v x :: qpost := by
  induction qpre with
  | nil => simpa using ckList_cons_match key v x qpost hx
  | cons y ys ih =>
    have hy := hpre y (List.mem_cons_self _ _)
    simp only [List.cons_append]
    rw [ckList_cons_nomatch key v y _ hy, ih (fun z hz => hpre z (List.mem_cons_of_mem _ hz))]

/-- C9 fails on the code for the property side: with two properties matching
the same key, `checkIfExistsAndAddValue` overwrites only `existingProp[0]`
— the second matching property keeps its old value, so not all matching
nodes are mutated. -/
theorem C9_counterexample :
    ¬ (∀ pr ∈ pProps
        (checkIfExistsAndAddValue
          (Node.objectExpr
            [Node.property "init" (.ident "a") (.lit (.prim (.pNum 1))),
             Node.property "init" (.ident "a") (.lit (.prim (.pNum 2)))])
          "a" (.prim (.pStr "v"))),
        safeTraverseKeyName pr = some "a" →
          pr = Node.property "init" (.ident "a") (.raw (.prim (.pStr "v")))) := by
  decide

/-- C9 amended: with several constructor calls matching the same dotted
name, `createOrUpdatePluginByName` visits and mutates every one of them (two
zero-argument matches both gain the options argument), and no error is
raised; with several properties matching the same key,
`checkIfExistsAndAddValue` mutates only the first match — later matching
properties are untouched — again without error. -/
theorem C9_amended_fanout_first_only (pre mid post : List Node) (c1 c2 : Node)
    (name : String) (opts : List (String × JSValue))
    (qpre qpost : List Node) (x : Node) (key : String) (v : JSValue)
    (hc1 : memberExpressionToPathString c1 = some name)
    (hc2 : memberExpressionToPathString c2 = some name)
    (hc1Clean : findPluginsByName c1 [name] = [])
    (hc2Clean : findPluginsByName c2 [name] = [])
    (hpre : findPluginsByName (Node.arrayExpr pre) [name] = [])
    (hmid : findPluginsByName (Node.arrayExpr mid) [name] = [])
    (hpost : findPluginsByName (Node.arrayExpr post) [name] = [])
    (hqpre : ∀ y ∈ qpre, (safeTraverseKeyName y == some key) = false)
    (hx : (safeTraverseKeyName x == some key) = true) :
    createOrUpdatePluginByName
        (Node.arrayExpr
          (pre ++ Node.newExpr c1 [] :: (mid ++ Node.newExpr c2 [] :: post)))
        name (some opts) =
      Node.arrayExpr (pre ++
        Node.newExpr c1 [Node.objectExpr (opts.map fun kv => createProperty kv.1 kv.2)] ::
          (mid ++
            Node.newExpr c2
                [Node.objectExpr (opts.map fun kv => createProperty kv.1 kv.2)] ::
              post)) ∧
    checkIfExistsAndAddValue (Node.objectExpr (qpre ++ x :: qpost)) key v =
      Node.objectExpr (qpre ++ setPropValueRaw v x :: qpost) := by
  constructor
  · have hmatch1 : matchesPluginName [name] (Node.newExpr c1 []) = true := by
      simp [matchesPluginName, hc1]
    have hmatch2 : matchesPluginName [name] (Node.newExpr c2 []) = true := by
      simp [matchesPluginName, hc2]
    simp only [findPluginsByName, findNewExprs] at hpre hmid hpost hc1Clean hc2Clean
    simp only [List.filter_eq_nil_iff] at hpre hmid hpost hc1Clean hc2Clean
    have hfull : findPluginsByName
        (Node.arrayExpr
          (pre ++ Node.newExpr c1 [] :: (mid ++ Node.newExpr c2 [] :: post)))
        [name] = [Node.newExpr c1 [], Node.newExpr c2 []] := by
      simp only [findPluginsByName, findNewExprs, findNewExprsList_append, findNewExprsList,
        List.filter_append, List.filter_cons]
      rw [List.filter_eq_nil_iff.mpr hpre, List.filter_eq_nil_iff.mpr hmid,
        List.filter_eq_nil_iff.mpr hpost, List.filter_eq_nil_iff.mpr hc1Clean,
        List.filter_eq_nil_iff.mpr hc2Clean]
      simp [hmatch1, hmatch2]
    unfold createOrUpdatePluginByName
    rw [hfull]
    simp only [List.length_cons, List.length_nil, ne_eq, Nat.succ_ne_zero, not_false_eq_true,
      if_true, reduceIte, Option.map_some']
    rw [show rewriteNewExprsNamed name
        (updateFoundPlugin (opts.map fun kv => createProperty kv.1 kv.2))
        (Node.arrayExpr
          (pre ++ Node.newExpr c1 [] :: (mid ++ Node.newExpr c2 [] :: post))) =
      Node.arrayExpr (rewriteNewExprsNamedList name
        (updateFoundPlugin (opts.map fun kv => createProperty kv.1 kv.2))
        (pre ++ Node.newExpr c1 [] :: (mid ++ Node.newExpr c2 [] :: post))) from rfl]
    rw [rewriteNewExprsNamedList_append]
    have hpre2 := (rewriteNewExprsNamed_noMatch name
      (updateFoundPlugin (opts.map fun kv => createProperty kv.1 kv.2)) (sizeOf pre + 1)).2
      pre (Nat.lt_succ_self _) (by intro m hm; exact by simpa using hpre m (by simpa using hm))
    have hmid2 := (rewriteNewExprsNamed_noMatch name
      (updateFoundPlugin (opts.map fun kv => createProperty kv.1 kv.2)) (sizeOf mid + 1)).2
      mid (Nat.lt_succ_self _) (by intro m hm; exact by simpa using hmid m (by simpa using hm))
    have hpost2 := (rewriteNewExprsNamed_noMatch name
      (updateFoundPlugin (opts.map fun kv => createProperty kv.1 kv.2)) (sizeOf post + 1)).2
      post (Nat.lt_succ_self _)
      (by intro m hm; exact by simpa using hpost m (by simpa using hm))
    have hc12 := (rewriteNewExprsNamed_noMatch name
      (updateFoundPlugin (opts.map fun kv => createProperty kv.1 kv.2)) (sizeOf c1 + 1)).1
      c1 (Nat.lt_succ_self _)
      (by intro m hm; exact by simpa using hc1Clean m (by simpa using hm))
    have hc22 := (rewriteNewExprsNamed_noMatch name
      (updateFoundPlugin (opts.map fun kv => createProperty kv.1 kv.2)) (sizeOf c2 + 1)).1
      c2 (Nat.lt_succ_self _)
      (by intro m hm; exact by simpa using hc2Clean m (by simpa using hm))
    rw [hpre2]
    rw [show rewriteNewExprsNamedList name
        (updateFoundPlugin (opts.map fun kv => createProperty kv.1 kv.2))
        (Node.newExpr c1 [] :: (mid ++ Node.newExpr c2 [] :: post)) =
      rewriteNewExprsNamed name
          (updateFoundPlugin (opts.map fun kv => createProperty kv.1 kv.2))
          (Node.newExpr c1 []) ::
        rewriteNewExprsNamedList name
          (updateFoundPlugin (opts.map fun kv => createProperty kv.1 kv.2))
          (mid ++ Node.newExpr c2 [] :: post) from rfl]
    rw [rewriteNewExprsNamedList_append, hmid2]
    rw [show rewriteNewExprsNamedList name
        (updateFoundPlugin (opts.map fun kv => createProperty kv.1 kv.2))
        (Node.newExpr c2 [] :: post) =
      rewriteNewExprsNamed name
          (updateFoundPlugin (opts.map fun kv => createProperty kv.1 kv.2))
          (Node.newExpr c2 []) ::
        rewriteNewExprsNamedList name
          (updateFoundPlugin (opts.map fun kv => createProperty kv.1 kv.2)) post from rfl]
    rw [hpost2]
    simp only [rewriteNewExprsNamed, rewriteNewExprsNamedList, hmatch1, hmatch2, if_true,
      hc12, hc22]
    simp [updateFoundPlugin]
  · unfold checkIfExistsAndAddValue
    rw [show pProps (Node.objectExpr (qpre ++ x :: qpost)) = qpre ++ x :: qpost from rfl,
      ckList_no_match_prefix key v qpre qpost x hqpre hx]
    rfl

/-- Witness for the amended C9: two `new webpack.DefinePlugin()` calls both
gain the `{A: "1"}` argument; of two `a` properties only the first is
overwritten. -/
theorem C9_amended_fanout_first_only_witness :
    memberExpressionToPathString
        (Node.memberExpr (.ident "webpack") (.ident "DefinePlugin")) =
      some "webpack.DefinePlugin" ∧
    (∀ y ∈ ([] : List Node), (safeTraverseKeyName y == some "a") = false) ∧
    (safeTraverseKeyName (Node.property "init" (.ident "a") (.lit (.prim (.pNum 1)))) ==
      some "a") = true ∧
    (createOrUpdatePluginByName
        (Node.arrayExpr
          ([] ++ Node.newExpr (Node.memberExpr (.ident "webpack") (.ident "DefinePlugin"))
              [] ::
            ([] ++ Node.newExpr
                (Node.memberExpr (.ident "webpack") (.ident "DefinePlugin")) [] :: [])))
        "webpack.DefinePlugin" (some [("A", .prim (.pStr "1"))]) =
      Node.arrayExpr ([] ++
        Node.newExpr (Node.memberExpr (.ident "webpack") (.ident "DefinePlugin"))
            [Node.objectExpr
              ([(("A" : String), JSValue.prim (.pStr "1"))].map fun kv =>
                createProperty kv.1 kv.2)] ::
          ([] ++
            Node.newExpr (Node.memberExpr (.ident "webpack") (.ident "DefinePlugin"))
                [Node.objectExpr
                  ([(("A" : String), JSValue.prim (.pStr "1"))].map fun kv =>
                    createProperty kv.1 kv.2)] ::
              [])) ∧
      checkIfExistsAndAddValue
          (Node.objectExpr
            ([] ++ Node.property "init" (.ident "a") (.lit (.prim (.pNum 1))) ::
              [Node.property "init" (.ident "a") (.lit (.prim (.pNum 2)))]))
          "a" (.prim (.pStr "v")) =
        Node.objectExpr
          ([] ++ setPropValueRaw (.prim (.pStr "v"))
              (Node.property "init" (.ident "a") (.lit (.prim (.pNum 1)))) ::
            [Node.property "init" (.ident "a") (.lit (.prim (.pNum 2)))])) :=
  ⟨by decide, by decide, by decide,
    C9_amended_fanout_first_only [] [] []
      (Node.memberExpr (.ident "webpack") (.ident "DefinePlugin"))
      (Node.memberExpr (.ident "webpack") (.ident "DefinePlugin"))
      "webpack.DefinePlugin" [("A", .prim (.pStr "1"))]
      [] [Node.property "init" (.ident "a") (.lit (.prim (.pNum 2)))]
      (Node.property "init" (.ident "a") (.lit (.prim (.pNum 1)))) "a" (.prim (.pStr "v"))
      (by decide) (by decide) rfl rfl rfl rfl rfl (by decide) (by decide)⟩
